import Mathlib

/-!
Verification of the dream-go 19×19 Go board engine
(`src/go/mod.rs` and `src/go/circular_buf.rs`) against its specification.

The Rust sources are shallowly embedded: vertex and group arrays become
functions `Nat → Nat`, unbounded `loop`s over group cycles become fueled
recursions (the data-model invariant guarantees every group cycle returns
within 361 steps, so fuel 361 is exact on well-formed boards), and the
external collaborators that the specification declares out of scope
(directional neighbour tables, the Zobrist constant table, the `SmallSet`
superko container, the byte-count helper) are modelled from the
specification's description of them.
-/

namespace DreamGo

/-- Stone colors; `Black = 1`, `White = 2` as in the Rust `#[repr(u8)]` enum. -/
inductive Color where
  | black
  | white
deriving DecidableEq, Repr

/-- The `u8` value of a color (`Color::Black as u8 = 1`, `Color::White as u8 = 2`). -/
def Color.val : Color → Nat
  | .black => 1
  | .white => 2

/-- `Color::opposite`. -/
def Color.opposite : Color → Color
  | .black => .white
  | .white => .black

/-- Pointwise update of a `Nat`-indexed array modelled as a function. -/
def upd (g : Nat → Nat) (i x : Nat) : Nat → Nat :=
  fun j => if j = i then x else g j

/-- Modelled from the spec: the directional neighbour table `codegen::N`
(missing from `src/`).  Maps an on-board index to the index one row up
(`index + 19`), and an index on the top row to the off-board sentinel 361. -/
def tblN (i : Nat) : Nat := if i + 19 < 361 then i + 19 else 361

/-- Modelled from the spec: the directional neighbour table `codegen::E`
(missing from `src/`).  Maps an on-board index to `index + 1`, or the
sentinel 361 on the last column (the table has no entries beyond 361, so
out-of-range arguments also map to the sentinel). -/
def tblE (i : Nat) : Nat := if i % 19 < 18 ∧ i < 361 then i + 1 else 361

/-- Modelled from the spec: the directional neighbour table `codegen::S`
(missing from `src/`).  Maps an on-board index to `index - 19`, or the
sentinel 361 on the bottom row. -/
def tblS (i : Nat) : Nat := if 19 ≤ i ∧ i < 361 then i - 19 else 361

/-- Modelled from the spec: the directional neighbour table `codegen::W`
(missing from `src/`).  Maps an on-board index to `index - 1`, or the
sentinel 361 on the first column. -/
def tblW (i : Nat) : Nat := if i % 19 ≠ 0 ∧ i < 361 then i - 1 else 361

/-- Modelled from the spec: `zobrist::TABLE` (missing from `src/`), a fixed
table of 64-bit values indexed by `(color, vertex)`.  The spec leaves the
random values external; this model uses an arbitrary fixed assignment of
distinct nonzero values below `2^64`. -/
def zobristTable (c i : Nat) : Nat := 1 + 368 * c + i

/-- Modelled from the spec: the `SmallSet` bounded superko container
(`small_set.rs` is missing from `src/`): an insertion-ordered set of up to 8
recent 64-bit hashes where pushing beyond capacity discards the oldest entry.
The list is kept newest-first. -/
structure SmallSet where
  buf : List Nat
deriving DecidableEq, Repr

/-- Modelled from the spec: an empty `SmallSet`. -/
def SmallSet.new : SmallSet := ⟨[]⟩

/-- Modelled from the spec: `SmallSet::push` keeps the 8 most recent values. -/
def SmallSet.push (s : SmallSet) (v : Nat) : SmallSet := ⟨(v :: s.buf).take 8⟩

/-- Modelled from the spec: `SmallSet::contains`. -/
def SmallSet.contains (s : SmallSet) (v : Nat) : Bool := s.buf.contains v

/-- Modelled from the spec: `SmallSet::iter`, newest first. -/
def SmallSet.iterList (s : SmallSet) : List Nat := s.buf

/-- `N_MOD_SIX`: the lookup table computing `(index + 1) % 6`. -/
def nModSix : Fin 6 → Fin 6
  | 0 => 1
  | 1 => 2
  | 2 => 3
  | 3 => 4
  | 4 => 5
  | 5 => 0

/-- `P_MOD_SIX`: the lookup table computing `(index - 1) % 6` with wrap-around. -/
def pModSix : Fin 6 → Fin 6
  | 0 => 5
  | 1 => 0
  | 2 => 1
  | 3 => 2
  | 4 => 3
  | 5 => 4

/-- `CircularBuf`: a circular stack of the six most recent pushed buffers
(each a 368-byte array, modelled as a `List Nat`). -/
structure CircularBuf where
  position : Fin 6
  buf : Fin 6 → List Nat

/-- `CircularBuf::new`: all six slots hold all-zero buffers. -/
def CircularBuf.new : CircularBuf :=
  ⟨0, fun _ => List.replicate 368 0⟩

/-- `CircularBuf::push`: copy the buffer into the current slot and advance. -/
def CircularBuf.push (c : CircularBuf) (b : List Nat) : CircularBuf :=
  ⟨nModSix c.position, fun j => if j = c.position then b else c.buf j⟩

/-- The list of the six buffers yielded by `CircularBuf::iter`, newest first:
the iterator starts at `P_MOD_SIX[position]` and steps through `P_MOD_SIX`
exactly six times. -/
def CircularBuf.iterList (c : CircularBuf) : List (List Nat) :=
  (List.range 6).map (fun m => c.buf (pModSix^[m + 1] c.position))

/-- Pushing all buffers of a list, oldest first, into a fresh `CircularBuf`. -/
def pushAll (L : List (List Nat)) : CircularBuf :=
  L.foldl CircularBuf.push CircularBuf.new

/-!
### The group walks of `mod.rs`

Every group-level operation in the Rust source is an unbounded `loop` that
starts at a stone `index`, processes `current`, then advances through
`next_vertex` and stops when it is back at `index`.  These loops are embedded
with an explicit fuel of 361; the data-model invariant (every cycle returns
within 361 steps) makes this fuel exact on well-formed boards.
-/

/-- The liberty observations the Rust loops make at one group member
`c`: for each cardinal direction whose neighbour cell is empty, the recorded
index `c ± 19` / `c ± 1`, in the fixed N, E, S, W order. -/
def libsOf (v : Nat → Nat) (c : Nat) : List Nat :=
  (if v (tblN c) = 0 then [c + 19] else []) ++
  ((if v (tblE c) = 0 then [c + 1] else []) ++
   ((if v (tblS c) = 0 then [c - 19] else []) ++
    (if v (tblW c) = 0 then [c - 1] else [])))

/-- One member's worth of the `check_two_liberties!` state machine: scan the
observations, returning `none` as soon as two distinct liberty indices were
seen (the Rust macro's `return true`) and otherwise the updated `previous`. -/
def scanPrev : List Nat → Nat → Option Nat
  | [], prev => some prev
  | e :: rest, prev => if prev ≠ 65535 ∧ prev ≠ e then none else scanPrev rest e

/-- The same state machine run over a whole observation sequence, returning
whether two distinct liberty indices occur. -/
def scanTwoList : List Nat → Nat → Bool
  | [], _ => false
  | e :: rest, prev => if prev ≠ 65535 ∧ prev ≠ e then true else scanTwoList rest e

/-- The fueled loop of `Board::_has_two_liberties`. -/
def hasTwoLibsAux (v f : Nat → Nat) (index : Nat) : Nat → Nat → Nat → Bool
  | 0, _, _ => false
  | fuel + 1, current, prev =>
    match scanPrev (libsOf v current) prev with
    | none => true
    | some prev2 =>
      if f current = index then false else hasTwoLibsAux v f index fuel (f current) prev2

/-- `Board::_has_two_liberties`: whether the group of the stone at `index`
has at least two distinct liberties (`previous` starts at `0xffff`). -/
def hasTwoLiberties (v f : Nat → Nat) (index : Nat) : Bool :=
  hasTwoLibsAux v f index 361 index 65535

/-- The fueled loop of `Board::get_one_liberty`. -/
def getOneLibertyAux (v f : Nat → Nat) (index : Nat) : Nat → Nat → Option Nat
  | 0, _ => none
  | fuel + 1, current =>
    if v (tblN current) = 0 then some (current + 19)
    else if v (tblE current) = 0 then some (current + 1)
    else if v (tblS current) = 0 then some (current - 19)
    else if v (tblW current) = 0 then some (current - 1)
    else if f current = index then none
    else getOneLibertyAux v f index fuel (f current)

/-- `Board::get_one_liberty`: the first liberty found for the group at
`index`, in N, E, S, W order along the cycle. -/
def get_one_liberty (v f : Nat → Nat) (index : Nat) : Option Nat :=
  getOneLibertyAux v f index 361 index

/-- `Board::has_one_liberty`. -/
def has_one_liberty (v f : Nat → Nat) (index : Nat) : Bool :=
  (get_one_liberty v f index).isSome

/-- The fueled do-while collection of the cycle members visited by the Rust
group loops, starting at `current` and stopping when `next_vertex` returns to
`index`. -/
def cycleListAux (f : Nat → Nat) (index : Nat) : Nat → Nat → List Nat
  | 0, _ => []
  | fuel + 1, current =>
    current :: (if f current = index then [] else cycleListAux f index fuel (f current))

/-- The members of the `next_vertex` cycle through `index`, in visiting
order.  Under the data-model invariant this is exactly the group of the stone
at `index`. -/
def cycleList (f : Nat → Nat) (index : Nat) : List Nat :=
  cycleListAux f index 361 index

/-- One iteration of `Board::capture`: XOR the member's Zobrist constant out
of the hash (reading the member's color from the board), then empty the
member's vertex. -/
def captureStep (p : (Nat → Nat) × Nat) (m : Nat) : (Nat → Nat) × Nat :=
  (upd p.1 m 0, p.2 ^^^ zobristTable (p.1 m) m)

/-- The fueled loop of `Board::capture`, threading `(vertices, zobrist_hash)`. -/
def captureAux (f : Nat → Nat) (index : Nat) :
    Nat → Nat → ((Nat → Nat) × Nat) → ((Nat → Nat) × Nat)
  | 0, _, p => p
  | fuel + 1, current, p =>
    if f current = index then captureStep p current
    else captureAux f index fuel (f current) (captureStep p current)

/-- `Board::capture`: remove the whole group at `index` from `vertices`,
updating the Zobrist hash. -/
def captureRun (f : Nat → Nat) (index : Nat) (v : Nat → Nat) (h : Nat) :
    (Nat → Nat) × Nat :=
  captureAux f index 361 index (v, h)

/-- The fueled loop of `Board::capture_other`. -/
def captureOtherAux (f : Nat → Nat) (index : Nat) : Nat → Nat → (Nat → Nat) → (Nat → Nat)
  | 0, _, v => v
  | fuel + 1, current, v =>
    if f current = index then upd v current 0
    else captureOtherAux f index fuel (f current) (upd v current 0)

/-- `Board::capture_other`: empty the whole group at `index` in the given
scratch vertex array, using this board's `next_vertex` for the cycle. -/
def capture_other (f : Nat → Nat) (v : Nat → Nat) (index : Nat) : Nat → Nat :=
  captureOtherAux f index 361 index v

/-- The fueled loop of `Board::capture_if`. -/
def captureIfAux (f : Nat → Nat) (index color : Nat) : Nat → Nat → Nat → Nat
  | 0, _, adj => adj
  | fuel + 1, current, adj =>
    if f current = index then adj ^^^ zobristTable color current
    else captureIfAux f index color fuel (f current) (adj ^^^ zobristTable color current)

/-- `Board::capture_if`: the Zobrist adjustment that capturing the group at
`index`, taken to be of the given color, would apply. -/
def capture_if (f : Nat → Nat) (color index : Nat) : Nat :=
  captureIfAux f index color 361 index 0

/-- The fueled membership walk at the head of `Board::join_vertices`: does
the chain starting at `index` pass through `other`? -/
def chainContainsAux (f : Nat → Nat) (index other : Nat) : Nat → Nat → Bool
  | 0, _ => false
  | fuel + 1, current =>
    if current = other then true
    else if f current = index then false
    else chainContainsAux f index other fuel (f current)

/-- The two next-pointer writes at the end of `Board::join_vertices`:
`next_vertex[other] = next_vertex[index]; next_vertex[index] = next_vertex[other]`
(both reading the old values). -/
def swapNext (f : Nat → Nat) (index other : Nat) : Nat → Nat :=
  fun j => if j = other then f index else if j = index then f other else f j

/-- `Board::join_vertices`: no-op when `other` is already in the chain of
`index`, otherwise splice the two cycles by swapping their next-pointers. -/
def join_vertices (f : Nat → Nat) (index other : Nat) : Nat → Nat :=
  if chainContainsAux f index other 361 index then f
  else swapNext f index other

/-- `Board::place_no_capture`: write the stone, make it a singleton cycle,
then join it with each same-colored cardinal neighbour in N, E, S, W order. -/
def place_no_capture (v f : Nat → Nat) (color : Color) (index : Nat) :
    (Nat → Nat) × (Nat → Nat) :=
  let player := color.val
  let v1 := upd v index player
  let f1 := upd f index index
  let f2 := if v1 (tblN index) = player then join_vertices f1 index (index + 19) else f1
  let f3 := if v1 (tblE index) = player then join_vertices f2 index (index + 1) else f2
  let f4 := if v1 (tblS index) = player then join_vertices f3 index (index - 19) else f3
  let f5 := if v1 (tblW index) = player then join_vertices f4 index (index - 1) else f4
  (v1, f5)

/-!
### The board
-/

/-- The `Board` record of `mod.rs`.  The two index arrays are modelled as
total functions on `Nat`; only indices below 368 (resp. 361) are ever used. -/
structure Board where
  vertices : Nat → Nat
  next_vertex : Nat → Nat
  history : CircularBuf
  count : Nat
  zobrist_hash : Nat
  zobrist_history : SmallSet

/-- `Board::new`: empty board with the seven off-board sentinel cells set
to `0xff`. -/
def Board.new : Board where
  vertices := fun i => if 361 ≤ i ∧ i < 368 then 255 else 0
  next_vertex := fun _ => 0
  history := CircularBuf.new
  count := 0
  zobrist_hash := 0
  zobrist_history := SmallSet.new

/-- `Board::at` (named `at'` because `at` is a reserved word in Lean). -/
def Board.at' (b : Board) (x y : Nat) : Option Color :=
  if b.vertices (19 * y + x) = 1 then some Color.black
  else if b.vertices (19 * y + x) = 2 then some Color.white
  else none

/-- The 368-byte snapshot of `vertices` pushed into the history. -/
def snapshot (v : Nat → Nat) : List Nat := (List.range 368).map v

/-- One of the four conditional capture lines of `Board::place`: if the
neighbour cell `t` holds the opponent `opp` and the group through `nb` does
not still have a liberty, capture it, threading `(vertices, zobrist_hash)`. -/
def capturePhaseStep (f : Nat → Nat) (opp t nb : Nat) (p : (Nat → Nat) × Nat) :
    (Nat → Nat) × Nat :=
  if p.1 t = opp ∧ has_one_liberty p.1 f nb = false then captureRun f nb p.1 p.2 else p

/-- `Board::place`: place the stone without legality checking, join friendly
neighbours, advance the Zobrist hash, capture adjacent opponent groups with
no liberties (re-reading the board between the four checks, exactly as the
Rust code does), then push the snapshot and the hash into the histories. -/
def Board.place (b : Board) (color : Color) (x y : Nat) : Board :=
  let index := 19 * y + x
  let pnc := place_no_capture b.vertices b.next_vertex color index
  let f := pnc.2
  let opp := color.opposite.val
  let p0 : (Nat → Nat) × Nat := (pnc.1, b.zobrist_hash ^^^ zobristTable color.val index)
  let p1 := capturePhaseStep f opp (tblN index) (index + 19) p0
  let p2 := capturePhaseStep f opp (tblE index) (index + 1) p1
  let p3 := capturePhaseStep f opp (tblS index) (index - 19) p2
  let p4 := capturePhaseStep f opp (tblW index) (index - 1) p3
  { vertices := p4.1
    next_vertex := f
    history := b.history.push (snapshot p4.1)
    count := b.count + 1
    zobrist_hash := p4.2
    zobrist_history := b.zobrist_history.push p4.2 }

/-- `Board::_is_valid`: pseudo-legality under the Tromp-Taylor rules. -/
def Board._is_valid (b : Board) (color : Color) (index : Nat) : Bool :=
  (b.vertices index == 0) &&
  (let n := b.vertices (tblN index)
   let e := b.vertices (tblE index)
   let s := b.vertices (tblS index)
   let w := b.vertices (tblW index)
   if n == 0 then true
   else if e == 0 then true
   else if s == 0 then true
   else if w == 0 then true
   else
     let cur := color.val
     if (n != 255) && ((n == cur) == hasTwoLiberties b.vertices b.next_vertex (index + 19)) then true
     else if (e != 255) && ((e == cur) == hasTwoLiberties b.vertices b.next_vertex (index + 1)) then true
     else if (s != 255) && ((s == cur) == hasTwoLiberties b.vertices b.next_vertex (index - 19)) then true
     else if (w != 255) && ((w == cur) == hasTwoLiberties b.vertices b.next_vertex (index - 1)) then true
     else false)

/-- `Board::_is_ko`: build the tentative post-move hash (XOR in the move,
XOR out `capture_if` of each cardinal opponent neighbour whose group lacks
two liberties, once per direction) and test it against `zobrist_history`. -/
def Board._is_ko (b : Board) (color : Color) (index : Nat) : Bool :=
  let opp := color.opposite.val
  let z0 := b.zobrist_hash ^^^ zobristTable color.val index
  let z1 := if b.vertices (tblN index) == opp && !(hasTwoLiberties b.vertices b.next_vertex (index + 19)) then
    z0 ^^^ capture_if b.next_vertex opp (index + 19) else z0
  let z2 := if b.vertices (tblE index) == opp && !(hasTwoLiberties b.vertices b.next_vertex (index + 1)) then
    z1 ^^^ capture_if b.next_vertex opp (index + 1) else z1
  let z3 := if b.vertices (tblS index) == opp && !(hasTwoLiberties b.vertices b.next_vertex (index - 19)) then
    z2 ^^^ capture_if b.next_vertex opp (index - 19) else z2
  let z4 := if b.vertices (tblW index) == opp && !(hasTwoLiberties b.vertices b.next_vertex (index - 1)) then
    z3 ^^^ capture_if b.next_vertex opp (index - 1) else z3
  b.zobrist_history.contains z4

/-- `Board::is_valid`: pseudo-legality and the superko check. -/
def Board.is_valid (b : Board) (color : Color) (x y : Nat) : Bool :=
  b._is_valid color (19 * y + x) && !(b._is_ko color (19 * y + x))

/-- `PartialEq for Board`: zip the two `zobrist_history` sequences and
require all zipped pairs equal, then require the vertex arrays equal
element-wise. -/
def Board.beq (a b : Board) : Bool :=
  ((a.zobrist_history.iterList.zip b.zobrist_history.iterList).all fun p => p.1 == p.2) &&
  ((List.range 368).all fun i => a.vertices i == b.vertices i)

end DreamGo

namespace DreamGo

/-!
### Territory and scoring
-/

/-- One direction of the relaxation body inside `get_territory_distance`:
if the neighbour cell `nb` is empty and its stored distance exceeds `tv`,
enqueue it and store `tv`. -/
def territoryRelax (v : Nat → Nat) (tv nb : Nat) (st : List Nat × (Nat → Nat)) :
    List Nat × (Nat → Nat) :=
  if v nb = 0 ∧ tv < st.2 nb then (st.1 ++ [nb], upd st.2 nb tv) else st

/-- The fueled BFS/Bellman-Ford queue loop of `Board::get_territory_distance`.
The distance bytes live in `u8`, so the increment wraps modulo 256. -/
def territoryLoop (v : Nat → Nat) : Nat → List Nat → (Nat → Nat) → (Nat → Nat)
  | 0, _, t => t
  | _ + 1, [], t => t
  | fuel + 1, index :: rest, t =>
    let tv := (t index + 1) % 256
    let s1 := territoryRelax v tv (tblN index) (rest, t)
    let s2 := territoryRelax v tv (tblE index) s1
    let s3 := territoryRelax v tv (tblS index) s2
    let s4 := territoryRelax v tv (tblW index) s3
    territoryLoop v fuel s4.1 s4.2

/-- `Board::get_territory_distance`: initialise all cells to `0xff`, set the
given color's stones to distance 0 and seed the queue with them in index
order, then run the relaxation loop.  Each successful relaxation strictly
decreases one cell's stored byte, so 200000 units of fuel are never
exhausted. -/
def Board.get_territory_distance (b : Board) (color : Color) : Nat → Nat :=
  territoryLoop b.vertices 200000
    ((List.range 361).filter (fun i => b.vertices i == color.val))
    (fun j => if j < 361 ∧ b.vertices j = color.val then 0 else 255)

/-- `Board::get_score`: fold the per-cell decision chain over the 361
on-board cells when at least one stone has been played (`zobrist_hash ≠ 0`),
otherwise `(0, 0)`. -/
def Board.get_score (b : Board) : Nat × Nat :=
  if b.zobrist_hash ≠ 0 then
    (List.range 361).foldl
      (fun p i =>
        if b.get_territory_distance Color.black i = 0 then (p.1 + 1, p.2)
        else if b.get_territory_distance Color.white i = 0 then (p.1, p.2 + 1)
        else if b.get_territory_distance Color.white i = 255 then (p.1 + 1, p.2)
        else if b.get_territory_distance Color.black i = 255 then (p.1, p.2 + 1)
        else p)
      (0, 0)
  else (0, 0)

/-!
### Ladder search
-/

/-- The `check!` macro body of `_is_ladder_capture` for one direction whose
neighbour cell is `nb`: if `nb` holds an opponent stone whose group lacks two
liberties, return that group's one remaining liberty (if any). -/
def ladderCheckDir (v f : Nat → Nat) (opp nb : Nat) : Option Nat :=
  if v nb == opp then
    (if hasTwoLiberties v f nb then none else get_one_liberty v f nb)
  else none

/-- The N, E, S, W `if let` chain locating the first adjacent opponent group
in atari and its extension point. -/
def ladderFindOpp (v f : Nat → Nat) (opp index : Nat) : Option Nat :=
  match ladderCheckDir v f opp (tblN index) with
  | some e => some e
  | none =>
    match ladderCheckDir v f opp (tblE index) with
    | some e => some e
    | none =>
      match ladderCheckDir v f opp (tblS index) with
      | some e => some e
      | none => ladderCheckDir v f opp (tblW index)

/-- The fueled recursion of `Board::_is_ladder_capture`.  The Rust function
recurses on clones of the working arrays; purity makes the clones implicit.
The fuel is decremented once per recursion level. -/
def ladderAux (color : Color) : Nat → (Nat → Nat) → (Nat → Nat) → Nat → Bool
  | 0, _, _, _ => false
  | fuel + 1, v, f, index =>
    let pnc := place_no_capture v f color index
    let v1 := pnc.1
    let f1 := pnc.2
    match ladderFindOpp v1 f1 color.opposite.val index with
    | none => false
    | some oppIdx =>
      let pnc2 := place_no_capture v1 f1 color.opposite oppIdx
      let v2 := pnc2.1
      let f2 := pnc2.2
      let oppCount :=
        (if v2 (tblN oppIdx) = 0 then 1 else 0) +
        ((if v2 (tblE oppIdx) = 0 then 1 else 0) +
         ((if v2 (tblS oppIdx) = 0 then 1 else 0) +
          (if v2 (tblW oppIdx) = 0 then 1 else 0)))
      if oppCount < 2 then true
      else if 2 < oppCount then false
      else
        let player := color.val
        if v2 (tblN oppIdx) == player && !(hasTwoLiberties v2 f2 (oppIdx + 19)) then false
        else if v2 (tblE oppIdx) == player && !(hasTwoLiberties v2 f2 (oppIdx + 1)) then false
        else if v2 (tblS oppIdx) == player && !(hasTwoLiberties v2 f2 (oppIdx - 19)) then false
        else if v2 (tblW oppIdx) == player && !(hasTwoLiberties v2 f2 (oppIdx - 1)) then false
        else if (if v2 (tblN oppIdx) = 0 then ladderAux color fuel v2 f2 (tblN oppIdx) else false) then true
        else if (if v2 (tblE oppIdx) = 0 then ladderAux color fuel v2 f2 (tblE oppIdx) else false) then true
        else if (if v2 (tblS oppIdx) = 0 then ladderAux color fuel v2 f2 (tblS oppIdx) else false) then true
        else if (if v2 (tblW oppIdx) = 0 then ladderAux color fuel v2 f2 (tblW oppIdx) else false) then true
        else false

/-- `Board::is_ladder_capture` on a clone of `vertices` and `next_vertex`.
The board has at most 361 empty cells, so 362 units of fuel always exceed
the recursion depth. -/
def Board.is_ladder_capture (b : Board) (color : Color) (index : Nat) : Bool :=
  ladderAux color 362 b.vertices b.next_vertex index

/-- `Board::is_ladder_escape` with an explicit fuel for the four inner
ladder searches. -/
def ladderEscapeF (fuel : Nat) (b : Board) (color : Color) (index : Nat) : Bool :=
  let player := color.val
  let v := b.vertices
  let f := b.next_vertex
  let connectedToOne :=
    (v (tblN index) == player && !(hasTwoLiberties v f (index + 19))) ||
    ((v (tblE index) == player && !(hasTwoLiberties v f (index + 1))) ||
     ((v (tblS index) == player && !(hasTwoLiberties v f (index - 19))) ||
      (v (tblW index) == player && !(hasTwoLiberties v f (index - 1)))))
  if !connectedToOne then false
  else
    let pnc := place_no_capture v f color index
    let v1 := pnc.1
    let f1 := pnc.2
    let libertyCount :=
      (if v1 (tblN index) = 0 then 1 else 0) +
      ((if v1 (tblE index) = 0 then 1 else 0) +
       ((if v1 (tblS index) = 0 then 1 else 0) +
        (if v1 (tblW index) = 0 then 1 else 0)))
    if libertyCount ≠ 2 then false
    else if tblN index < 361 && ladderAux color fuel v1 f1 (tblN index) then false
    else if tblE index < 361 && ladderAux color fuel v1 f1 (tblE index) then false
    else if tblS index < 361 && ladderAux color fuel v1 f1 (tblS index) then false
    else if tblW index < 361 && ladderAux color fuel v1 f1 (tblW index) then false
    else true

/-- `Board::is_ladder_escape`. -/
def Board.is_ladder_escape (b : Board) (color : Color) (index : Nat) : Bool :=
  ladderEscapeF 362 b color index

/-!
### The feature extractor
-/

/-- The fueled loop of `Board::fill_liberties`: for every member of the
group, write the value of each cardinal neighbour cell into the scratch
buffer at that neighbour's table index. -/
def fillLibertiesAux (f v : Nat → Nat) (index : Nat) :
    Nat → Nat → (Nat → Nat) → (Nat → Nat)
  | 0, _, libs => libs
  | fuel + 1, current, libs =>
    let l1 := upd libs (tblN current) (v (tblN current))
    let l2 := upd l1 (tblE current) (v (tblE current))
    let l3 := upd l2 (tblS current) (v (tblS current))
    let l4 := upd l3 (tblW current) (v (tblW current))
    if f current = index then l4 else fillLibertiesAux f v index fuel (f current) l4

/-- `Board::fill_liberties` (the group structure comes from `f`, the cell
values from the possibly scratch array `v`). -/
def fill_liberties (f v : Nat → Nat) (index : Nat) (libs : Nat → Nat) : Nat → Nat :=
  fillLibertiesAux f v index 361 index libs

/-- Modelled from the spec: `asm::count_zeros` (missing from `src/`), the
bit-count helper that counts the positions equal to `EMPTY` in the 384-byte
scratch buffer. -/
def count_zeros (libs : Nat → Nat) : Nat :=
  (List.range 384).countP (fun i => libs i == 0)

/-- The memoisation write-back walk of `Board::get_num_liberties`. -/
def memoWriteAux (f : Nat → Nat) (index num : Nat) :
    Nat → Nat → (Nat → Nat) → (Nat → Nat)
  | 0, _, memo => memo
  | fuel + 1, current, memo =>
    if f current = index then upd memo current num
    else memoWriteAux f index num fuel (f current) (upd memo current num)

/-- `Board::get_num_liberties`, returning the count and the updated memo
array. -/
def Board.get_num_liberties (b : Board) (index : Nat) (memo : Nat → Nat) :
    Nat × (Nat → Nat) :=
  if memo index ≠ 0 then (memo index, memo)
  else
    let num := count_zeros (fill_liberties b.next_vertex b.vertices index (fun _ => 255))
    (num, memoWriteAux b.next_vertex index num 361 index memo)

/-- The direction chain of `Board::_is_valid_memoize`, threading the memo
array through the liberty-count queries exactly as the Rust `&&` and early
`return`s do. -/
def validMemoStep (b : Board) (cur : Nat) :
    List (Nat × Nat) → (Nat → Nat) → Bool × (Nat → Nat)
  | [], memo => (false, memo)
  | dv :: rest, memo =>
    if dv.1 ≠ 255 then
      let r := b.get_num_liberties dv.2 memo
      if ((dv.1 == cur) == decide (2 ≤ r.1)) then (true, r.2)
      else validMemoStep b cur rest r.2
    else validMemoStep b cur rest memo

/-- `Board::_is_valid_memoize`. -/
def Board._is_valid_memoize (b : Board) (color : Color) (index : Nat)
    (memo : Nat → Nat) : Bool × (Nat → Nat) :=
  let n := b.vertices (tblN index)
  let e := b.vertices (tblE index)
  let s := b.vertices (tblS index)
  let w := b.vertices (tblW index)
  if n == 0 || (e == 0 || (s == 0 || w == 0)) then (true, memo)
  else
    validMemoStep b color.val
      [(n, index + 19), (e, index + 1), (s, index - 19), (w, index - 1)] memo

/-- One capture check of `Board::get_num_liberties_if` for the neighbour
cell `nb` with group start `tgt`; threads the scratch vertices and the memo
array. -/
def libIfCapture (b : Board) (opp nb tgt : Nat) (st : (Nat → Nat) × (Nat → Nat)) :
    (Nat → Nat) × (Nat → Nat) :=
  if st.1 nb == opp then
    let r := b.get_num_liberties tgt st.2
    if r.1 = 1 then (capture_other b.next_vertex st.1 tgt, r.2) else (st.1, r.2)
  else st

/-- `Board::get_num_liberties_if`: the liberty count the stone would have if
placed, with pretend captures of dead opponent neighbours. -/
def Board.get_num_liberties_if (b : Board) (color : Color) (index : Nat)
    (memo : Nat → Nat) : Nat × (Nat → Nat) :=
  let cur := color.val
  let opp := color.opposite.val
  let s0 : (Nat → Nat) × (Nat → Nat) := (upd b.vertices index cur, memo)
  let s1 := libIfCapture b opp (tblN index) (index + 19) s0
  let s2 := libIfCapture b opp (tblE index) (index + 1) s1
  let s3 := libIfCapture b opp (tblS index) (index - 19) s2
  let s4 := libIfCapture b opp (tblW index) (index - 1) s3
  let v2 := s4.1
  let l0 : Nat → Nat := fun _ => 255
  let l1 := if v2 (tblN index) == cur then fill_liberties b.next_vertex v2 (index + 19) l0 else l0
  let l2 := if v2 (tblE index) == cur then fill_liberties b.next_vertex v2 (index + 1) l1 else l1
  let l3 := if v2 (tblS index) == cur then fill_liberties b.next_vertex v2 (index - 19) l2 else l2
  let l4 := if v2 (tblW index) == cur then fill_liberties b.next_vertex v2 (index - 1) l3 else l3
  let l5 := upd l4 (tblN index) (v2 (tblN index))
  let l6 := upd l5 (tblE index) (v2 (tblE index))
  let l7 := upd l6 (tblS index) (v2 (tblS index))
  let l8 := upd l7 (tblW index) (v2 (tblW index))
  (count_zeros l8, s4.2)

/-- The feature planes that the first loop of `Board::get_features` sets at
one cell beyond the two constant planes: the liberty-bucket plane of an
occupied cell, or the liberties-after-move bucket of an empty pseudo-legal
cell. -/
def featurePlanesAt (b : Board) (color : Color) (index : Nat) (memo : Nat → Nat) :
    List Nat × (Nat → Nat) :=
  if b.vertices index ≠ 0 then
    ([if b.vertices index = color.val then 1 + min (b.get_num_liberties index memo).1 6
      else 19 + min (b.get_num_liberties index memo).1 6],
     (b.get_num_liberties index memo).2)
  else if (b._is_valid_memoize color index memo).1 then
    ([7 + min (b.get_num_liberties_if color index
        ((b._is_valid_memoize color index memo).2)).1 6],
     (b.get_num_liberties_if color index ((b._is_valid_memoize color index memo).2)).2)
  else ([], (b._is_valid_memoize color index memo).2)

/-- All `(plane, transformed cell)` write positions of the first loop of
`Board::get_features`, in program order, threading the memo array. -/
def featureWritesFirst (b : Board) (color : Color) (sym : Nat → Nat) :
    List (Nat × Nat) :=
  ((List.range 361).foldl
    (fun (acc : List (Nat × Nat) × (Nat → Nat)) index =>
      (acc.1 ++ ((0, sym index) :: (1, sym index) ::
        (featurePlanesAt b color index acc.2).1.map (fun l => (l, sym index))),
       (featurePlanesAt b color index acc.2).2))
    ([], fun _ => 0)).1

/-- All `(plane, transformed cell)` write positions of the history loop of
`Board::get_features`: plane `14 + i` for our stones and `26 + i` for the
opponent's, over the six history snapshots (newest first). -/
def featureWritesHistory (b : Board) (color : Color) (sym : Nat → Nat) :
    List (Nat × Nat) :=
  (((List.range 6).zip b.history.iterList).map
    (fun iv =>
      (List.range 361).foldr
        (fun index acc =>
          if iv.2.getD index 0 = 0 then acc
          else if iv.2.getD index 0 = color.val then (14 + iv.1, sym index) :: acc
          else (26 + iv.1, sym index) :: acc)
        [])).flatten

/-- All write positions `(plane, transformed cell)` performed by
`Board::get_features`. -/
def featureWrites (b : Board) (color : Color) (sym : Nat → Nat) :
    List (Nat × Nat) :=
  featureWritesFirst b color sym ++ featureWritesHistory b color sym

/-- `CHW::index`: the `NCHW` data-format offset. -/
def CHW.index (c i : Nat) : Nat := c * 361 + i

/-- `HWC::index`: the `NHWC` data-format offset. -/
def HWC.index (c i : Nat) : Nat := i * 32 + c

/-- The value written at a feature position: the plane-1 writes store the
`is_black` indicator, every other write stores 1. -/
def featureValue (color : Color) (plane : Nat) : Nat :=
  if plane = 1 then (if color = Color.black then 1 else 0) else 1

/-- `Board::get_features`: the 32 × 361 tensor, assembled by folding the
write positions through the pluggable `Order` offset function. -/
def Board.get_features (b : Board) (color : Color) (sym : Nat → Nat)
    (ord : Nat → Nat → Nat) : List Nat :=
  (featureWrites b color sym).foldl
    (fun t w => t.set (ord w.1 w.2) (featureValue color w.1))
    (List.replicate (32 * 361) 0)

end DreamGo

namespace DreamGo

/-!
### Specification-side definitions

These are written from the wording of the specification and of the claims,
to be compared with the embedded code above.
-/

/-- Data-model invariant 1: the seven sentinel cells hold `OFF_BOARD`. -/
def sentinelsOK (v : Nat → Nat) : Prop :=
  ∀ i, i < 7 → v (361 + i) = 255

/-- Every on-board cell holds `EMPTY`, `BLACK` or `WHITE`. -/
def colorsOK (v : Nat → Nat) : Prop :=
  ∀ i, i < 361 → v i = 0 ∨ v i = 1 ∨ v i = 2

/-- The board-array invariant of the data model: cell values are in range,
and `next_vertex` restricted to the occupied cells is a color-preserving
injection into the occupied cells.  On a finite board this makes every
occupied vertex's `next_vertex` orbit a cycle of same-colored stones. -/
def ArrInv (v f : Nat → Nat) : Prop :=
  colorsOK v ∧ sentinelsOK v ∧
  (∀ i, i < 361 → v i ≠ 0 → f i < 361 ∧ v (f i) = v i) ∧
  (∀ i, i < 361 → v i ≠ 0 → ∀ j, j < 361 → v j ≠ 0 → f i = f j → i = j)

instance (v : Nat → Nat) : Decidable (sentinelsOK v) :=
  inferInstanceAs (Decidable (∀ i, i < 7 → v (361 + i) = 255))

instance (v : Nat → Nat) : Decidable (colorsOK v) :=
  inferInstanceAs (Decidable (∀ i, i < 361 → _ ∨ _ ∨ _))

instance (v f : Nat → Nat) : Decidable (ArrInv v f) :=
  inferInstanceAs (Decidable (_ ∧ _ ∧ _ ∧ _))

/-- A board is well formed when its arrays satisfy `ArrInv`. -/
def Board.WF (b : Board) : Prop :=
  ArrInv b.vertices b.next_vertex

instance (b : Board) : Decidable b.WF :=
  inferInstanceAs (Decidable (ArrInv _ _))

/-- The number of empty on-board cells. -/
def emptyCount (v : Nat → Nat) : Nat :=
  (List.range 361).countP (fun i => v i == 0)

/-- The Zobrist contribution of cell `i`: the constant of its stone when
occupied, `0` when empty (or a sentinel). -/
def zContrib (v : Nat → Nat) (i : Nat) : Nat :=
  if v i = 1 then zobristTable 1 i else if v i = 2 then zobristTable 2 i else 0

/-- The XOR of `ZOBRIST[color][i]` over all currently occupied `(color, i)`
pairs, as the specification states invariant 4. -/
def occupiedXor (v : Nat → Nat) : Nat :=
  ((List.range 361).map (zContrib v)).foldr (· ^^^ ·) 0

/-- A sequence of moves is played on successively empty in-range target
vertices. -/
def legalSeq : Board → List (Color × Nat × Nat) → Prop
  | _, [] => True
  | b, m :: rest =>
    m.2.1 < 19 ∧ m.2.2 < 19 ∧ b.vertices (19 * m.2.2 + m.2.1) = 0 ∧
      legalSeq (b.place m.1 m.2.1 m.2.2) rest

instance instDecidableLegalSeq : (b : Board) → (ms : List (Color × Nat × Nat)) →
    Decidable (legalSeq b ms)
  | _, [] => isTrue trivial
  | b, m :: rest =>
    haveI : Decidable (legalSeq (b.place m.1 m.2.1 m.2.2) rest) :=
      instDecidableLegalSeq (b.place m.1 m.2.1 m.2.2) rest
    inferInstanceAs (Decidable (_ ∧ _ ∧ _ ∧ _))

/-- Playing a list of moves from a starting board. -/
def playMoves (b : Board) : List (Color × Nat × Nat) → Board
  | [] => b
  | m :: rest => playMoves (b.place m.1 m.2.1 m.2.2) rest

/-- `e` is one of the four cardinal table neighbours of `s`. -/
def isNbrOf (s e : Nat) : Prop :=
  tblN s = e ∨ tblE s = e ∨ tblS s = e ∨ tblW s = e

instance (s e : Nat) : Decidable (isNbrOf s e) :=
  inferInstanceAs (Decidable (_ ∨ _ ∨ _ ∨ _))

/-- The set of liberties of the group of the stone at `m` (the group being
its `next_vertex` cycle, as the data model tracks groups): the empty cells
cardinally adjacent to some member. -/
def libFinset (v f : Nat → Nat) (m : Nat) : Finset Nat :=
  (Finset.range 368).filter (fun e => v e = 0 ∧ ∃ s ∈ cycleList f m, isNbrOf s e)

/-- The four cardinal neighbour cells of `i`, via the neighbour tables. -/
def dirNbrs (i : Nat) : List Nat := [tblN i, tblE i, tblS i, tblW i]

/-- Claim C1's pseudo-legality, stated from the spec: the target is empty,
and a cardinal neighbour is empty, or a friendly cardinal neighbour's group
has at least two liberties, or an opponent cardinal neighbour's group has
exactly one liberty. -/
def pseudoLegalSpec (b : Board) (c : Color) (i : Nat) : Prop :=
  b.vertices i = 0 ∧
  ((∃ m ∈ dirNbrs i, b.vertices m = 0) ∨
   (∃ m ∈ dirNbrs i, b.vertices m = c.val ∧
      2 ≤ (libFinset b.vertices b.next_vertex m).card) ∨
   (∃ m ∈ dirNbrs i, b.vertices m = c.opposite.val ∧
      (libFinset b.vertices b.next_vertex m).card = 1))

instance : Std.Commutative (α := Nat) (· ^^^ ·) := ⟨Nat.xor_comm⟩

instance : Std.Associative (α := Nat) (· ^^^ ·) := ⟨Nat.xor_assoc⟩

/-- The XOR of the opponent's Zobrist constants over the members of the
group of `m`, computed over the member set. -/
def groupXor (f : Nat → Nat) (colorV m : Nat) : Nat :=
  Finset.fold (· ^^^ ·) 0 (fun s => zobristTable colorV s) (cycleList f m).toFinset

/-- Whether the opponent group at the cardinal neighbour `m` of `i` would be
captured by the move at `i`: `m` holds an opponent stone and its group's only
liberty is `i` (equivalently, the group has exactly one liberty). -/
def capturedDir (b : Board) (c : Color) (m : Nat) : Prop :=
  b.vertices m = c.opposite.val ∧ (libFinset b.vertices b.next_vertex m).card = 1

instance (b : Board) (c : Color) (m : Nat) : Decidable (capturedDir b c m) :=
  inferInstanceAs (Decidable (_ ∧ _))

/-- The amended claim C2's tentative post-move hash: XOR in the mover's
constant, then, separately for each of the four cardinal directions whose
neighbour group would be captured, XOR out that group's member constants
(a group adjacent from two directions is therefore XORed twice). -/
def tentativeDir (b : Board) (c : Color) (i : Nat) : Nat :=
  (dirNbrs i).foldl
    (fun z m => if capturedDir b c m then z ^^^ groupXor b.next_vertex c.opposite.val m else z)
    (b.zobrist_hash ^^^ zobristTable c.val i)

/-- The distinct member sets of the opponent neighbour groups that the move
at `i` would capture. -/
def capturedGroups (b : Board) (c : Color) (i : Nat) : Finset (Finset Nat) :=
  (((dirNbrs i).filter (fun m => decide (capturedDir b c m))).map
    (fun m => (cycleList b.next_vertex m).toFinset)).toFinset

/-- The original claim C2's tentative post-move hash: XOR in the mover's
constant, then XOR out each captured opponent group's member constants
exactly once per group. -/
def tentativeGroups (b : Board) (c : Color) (i : Nat) : Nat :=
  Finset.fold (· ^^^ ·) (b.zobrist_hash ^^^ zobristTable c.val i)
    (fun S => Finset.fold (· ^^^ ·) 0 (fun s => zobristTable c.opposite.val s) S)
    (capturedGroups b c i)

/-- Claim C5's per-cell ownership chain, from the two territory-distance
maps: a cell counts for black when its distance to black is 0, otherwise for
white when its distance to white is 0, otherwise for black when it is
unreachable from white, otherwise for white when it is unreachable from
black, and otherwise for neither. -/
def cellOwner (bd wd : Nat → Nat) (i : Nat) : Option Color :=
  if bd i = 0 then some Color.black
  else if wd i = 0 then some Color.white
  else if wd i = 255 then some Color.black
  else if bd i = 255 then some Color.white
  else none

/-- Claim C5's score: the number of cells owned by black and by white. -/
def scoreSpec (b : Board) : Nat × Nat :=
  ((List.range 361).countP
      (fun i => cellOwner (b.get_territory_distance Color.black)
        (b.get_territory_distance Color.white) i == some Color.black),
   (List.range 361).countP
      (fun i => cellOwner (b.get_territory_distance Color.black)
        (b.get_territory_distance Color.white) i == some Color.white))

/-- No stone has been played on the board. -/
def allEmpty (v : Nat → Nat) : Prop :=
  ∀ i, i < 361 → v i = 0

instance (v : Nat → Nat) : Decidable (allEmpty v) :=
  inferInstanceAs (Decidable (∀ i, i < 361 → v i = 0))

/-!
### Concrete boards used by witnesses and counterexamples
-/

/-- Boards used in the claim C6 counterexample: identical vertex arrays,
superko histories of different lengths sharing a common prefix. -/
def c6BoardA : Board :=
  ⟨fun _ => 0, fun i => i, CircularBuf.new, 0, 0, ⟨[5]⟩⟩

/-- Second board of the claim C6 counterexample. -/
def c6BoardB : Board :=
  ⟨fun _ => 0, fun i => i, CircularBuf.new, 0, 0, ⟨[5, 7]⟩⟩

/-- The board of the C5 witness: a single black stone at the origin. -/
def c5WitnessBoard : Board := playMoves Board.new [(Color.black, 0, 0)]

/-- A small well-formed board used by several witnesses: three stones played
from the fresh board. -/
def wfWitnessBoard : Board :=
  playMoves Board.new [(Color.black, 3, 3), (Color.white, 4, 3), (Color.black, 3, 4)]

/-- The vertex array of the C2 counterexample board: a white group on cells
1, 2 and 21 whose only liberty is cell 20, black stones at 0, 3, 22 and 40
walling it in, sentinels at 361..367. -/
def c2Verts : Nat → Nat := fun i =>
  if i = 1 ∨ i = 2 ∨ i = 21 then 2
  else if i = 0 ∨ i = 3 ∨ i = 22 ∨ i = 40 then 1
  else if 361 ≤ i ∧ i < 368 then 255 else 0

/-- The group cycles of the C2 counterexample board. -/
def c2Next : Nat → Nat := fun i =>
  if i = 1 then 2 else if i = 2 then 21 else if i = 21 then 1 else i

/-- The C2 counterexample board.  Its `zobrist_history` contains exactly the
value that `_is_ko` computes for black playing at cell 20 (the white group
touches cell 20 from two directions, so its `capture_if` XOR is applied
twice and cancels). -/
def c2Board : Board :=
  ⟨c2Verts, c2Next, CircularBuf.new, 7, occupiedXor c2Verts,
    ⟨[occupiedXor c2Verts ^^^ zobristTable 1 20]⟩⟩

/-- The board of the C3 counterexample: three in-range `place` calls where
the third one targets an already occupied vertex (white replays on top of
the black stone at the origin), which corrupts the cycle structure. -/
def c3CexBoard : Board :=
  playMoves Board.new [(Color.black, 0, 0), (Color.black, 1, 0), (Color.white, 0, 0)]

/-- The board of the C4 counterexample: two in-range `place` calls, the
second targeting the already occupied origin. -/
def c4CexBoard : Board :=
  playMoves Board.new [(Color.black, 0, 0), (Color.white, 0, 0)]

end DreamGo

namespace DreamGo

/-!
### Helper lemmas
-/

theorem upd_same (g : Nat → Nat) (i x : Nat) : upd g i x i = x := by
  simp [upd]

theorem upd_other (g : Nat → Nat) (i x j : Nat) (h : j ≠ i) : upd g i x j = g j := by
  simp [upd, h]

theorem iterList_push (c : CircularBuf) (x : List Nat) :
    (c.push x).iterList = x :: c.iterList.take 5 := by
  rcases c with ⟨p, f⟩
  fin_cases p <;> rfl

theorem iterList_pushAll (L : List (List Nat)) :
    (pushAll L).iterList
      = L.reverse.take 6 ++ List.replicate (6 - min L.length 6) (List.replicate 368 0) := by
  induction L using List.reverseRecOn with
  | nil => rfl
  | append_singleton l x ih =>
    have hfold : pushAll (l ++ [x]) = (pushAll l).push x := by
      simp [pushAll, List.foldl_append]
    rw [hfold, iterList_push, ih, List.reverse_append, List.reverse_singleton]
    simp only [List.singleton_append, List.take_succ_cons, List.length_append,
      List.length_singleton]
    rw [List.take_append_eq_append_take, List.take_take, List.take_replicate]
    have hlen : (l.reverse.take 6).length = min 6 l.length := by
      simp [List.length_take]
    have h5 : min 5 6 = 5 := by omega
    rw [h5, hlen, List.cons_append]
    have harith : (5 - min 6 l.length) ⊓ (6 - l.length ⊓ 6) = 6 - (l.length + 1) ⊓ 6 := by
      omega
    rw [harith]

theorem sentinelsOK_val {v : Nat → Nat} (h : sentinelsOK v) {j : Nat}
    (h1 : 361 ≤ j) (h2 : j < 368) : v j = 255 := by
  have hv := h (j - 361) (by omega)
  rwa [Nat.add_sub_cancel' h1] at hv

/-!
### Claim theorems
-/

/-- C6 counterexample: the claim states that two boards whose
`zobrist_history` sequences differ in length compare unequal; but `Board`'s
equality zips the two histories, so the comparison only inspects the common
prefix, and these two boards with histories `[5]` and `[5, 7]` and identical
vertex arrays compare equal. -/
theorem claimC6_counterexample :
    Board.beq c6BoardA c6BoardB = true ∧
    c6BoardA.zobrist_history.iterList.length ≠ c6BoardB.zobrist_history.iterList.length := by
  constructor
  · set_option maxRecDepth 10000 in decide
  · decide

/-- C6 (amended): two boards compare equal if and only if their
`zobrist_history` sequences agree element-wise up to the length of the
shorter one (the zip of the two sequences) and their vertex arrays agree
element-wise. -/
theorem claimC6 (a b : Board) :
    Board.beq a b = true ↔
      ((∀ p ∈ a.zobrist_history.iterList.zip b.zobrist_history.iterList, p.1 = p.2) ∧
       ∀ i, i < 368 → a.vertices i = b.vertices i) := by
  constructor
  · intro h
    rw [Board.beq, Bool.and_eq_true, List.all_eq_true, List.all_eq_true] at h
    refine ⟨fun p hp => ?_, fun i hi => ?_⟩
    · have := h.1 p hp
      simpa using this
    · have := h.2 i (List.mem_range.mpr hi)
      simpa using this
  · intro h
    rw [Board.beq, Bool.and_eq_true, List.all_eq_true, List.all_eq_true]
    refine ⟨fun p hp => ?_, fun i hi => ?_⟩
    · simpa using h.1 p hp
    · simpa using h.2 i (List.mem_range.mp hi)

/-- C7: after pushing any sequence of 368-byte buffers into a fresh
`CircularBuf`, the iterator yields exactly six buffers, newest first: the
most recent `min n 6` pushed buffers in reverse push order, padded with
all-zero 368-byte buffers when fewer than six were pushed. -/
theorem claimC7 (L : List (List Nat)) (h : ∀ x ∈ L, x.length = 368) :
    (pushAll L).iterList
      = L.reverse.take 6 ++ List.replicate (6 - min L.length 6) (List.replicate 368 0) ∧
    ((pushAll L).iterList).length = 6 := by
  refine ⟨iterList_pushAll L, ?_⟩
  simp [CircularBuf.iterList]

/-- Witness for C7 at a concrete two-element push sequence. -/
theorem claimC7_witness :
    (pushAll [List.replicate 368 1, List.replicate 368 2]).iterList
      = [List.replicate 368 1, List.replicate 368 2].reverse.take 6 ++
        List.replicate (6 - min [List.replicate 368 1, List.replicate 368 2].length 6)
          (List.replicate 368 0) ∧
    ((pushAll [List.replicate 368 1, List.replicate 368 2]).iterList).length = 6 :=
  claimC7 [List.replicate 368 1, List.replicate 368 2] (by
    intro x hx
    rcases List.mem_cons.mp hx with h | hx2
    · rw [h, List.length_replicate]
    · rcases List.mem_cons.mp hx2 with h | hx3
      · rw [h, List.length_replicate]
      · cases hx3)

/-- C9: for all coordinates whose row-major index is below 368 the `at`
query reads inside the 368-byte vertex array (so it cannot panic), returns
`Some(Black)` exactly when the cell holds 1, `Some(White)` exactly when it
holds 2, and `None` otherwise; in particular, when the sentinel invariant
holds, the seven off-board cells (value `0xff`) are reported as `None`, so
the `OFF_BOARD` marker is never exposed. -/
theorem claimC9 (b : Board) (x y : Nat) (h : 19 * y + x < 368) :
    (b.at' x y = some Color.black ↔ b.vertices (19 * y + x) = 1) ∧
    (b.at' x y = some Color.white ↔ b.vertices (19 * y + x) = 2) ∧
    (b.at' x y = none ↔ (b.vertices (19 * y + x) ≠ 1 ∧ b.vertices (19 * y + x) ≠ 2)) ∧
    (sentinelsOK b.vertices → 361 ≤ 19 * y + x → b.at' x y = none) := by
  refine ⟨?_, ?_, ?_, ?_⟩
  · rw [Board.at']
    split
    · simp [*]
    · split <;> simp [*]
  · rw [Board.at']
    split
    · rename_i h1
      simp [h1]
    · split <;> simp [*]
  · rw [Board.at']
    split
    · simp [*]
    · split <;> simp [*]
  · intro hs hge
    have hv : b.vertices (19 * y + x) = 255 := sentinelsOK_val hs hge h
    rw [Board.at', hv]
    norm_num

/-- Witness for C9 at the fresh board and a concrete coordinate. -/
theorem claimC9_witness :
    (Board.new.at' 5 0 = some Color.black ↔ Board.new.vertices (19 * 0 + 5) = 1) ∧
    (Board.new.at' 5 0 = some Color.white ↔ Board.new.vertices (19 * 0 + 5) = 2) ∧
    (Board.new.at' 5 0 = none ↔
      (Board.new.vertices (19 * 0 + 5) ≠ 1 ∧ Board.new.vertices (19 * 0 + 5) ≠ 2)) ∧
    (sentinelsOK Board.new.vertices → 361 ≤ 19 * 0 + 5 → Board.new.at' 5 0 = none) :=
  claimC9 Board.new 5 0 (by norm_num)

theorem foldl_inv {α β : Type} (P : β → Prop) (Q : α → Prop) (step : β → α → β)
    (hstep : ∀ b a, Q a → P b → P (step b a)) :
    ∀ (l : List α), (∀ a ∈ l, Q a) → ∀ b, P b → P (l.foldl step b) := by
  intro l
  induction l with
  | nil => intro _ b hb; exact hb
  | cons a l ih =>
    intro hl b hb
    exact ih (fun x hx => hl x (List.mem_cons_of_mem a hx))
      (step b a) (hstep b a (hl a (List.mem_cons_self a l)) hb)

theorem foldr_inv {α β : Type} (P : β → Prop) (Q : α → Prop) (step : α → β → β)
    (hstep : ∀ a b, Q a → P b → P (step a b)) :
    ∀ (l : List α), (∀ a ∈ l, Q a) → ∀ b, P b → P (l.foldr step b) := by
  intro l
  induction l with
  | nil => intro _ b hb; exact hb
  | cons a l ih =>
    intro hl b hb
    exact hstep a (l.foldr step b) (hl a (List.mem_cons_self a l))
      (ih (fun x hx => hl x (List.mem_cons_of_mem a hx)) b hb)

theorem featurePlanesAt_lt (b : Board) (color : Color) (index : Nat) (memo : Nat → Nat) :
    ∀ l ∈ (featurePlanesAt b color index memo).1, l < 32 := by
  intro l hl
  rw [featurePlanesAt] at hl
  split at hl
  · simp only [List.mem_singleton] at hl
    have hmin : min (b.get_num_liberties index memo).1 6 ≤ 6 := Nat.min_le_right _ _
    split at hl <;> omega
  · split at hl
    · simp only [List.mem_singleton] at hl
      have hmin :
          min (b.get_num_liberties_if color index
            ((b._is_valid_memoize color index memo).2)).1 6 ≤ 6 := Nat.min_le_right _ _
      omega
    · simp at hl

theorem featureWritesFirst_bound (b : Board) (color : Color) (sym : Nat → Nat)
    (hs : ∀ j, j < 361 → sym j < 361) :
    ∀ w ∈ featureWritesFirst b color sym, w.1 < 32 ∧ w.2 < 361 := by
  intro w hw
  rw [featureWritesFirst] at hw
  refine foldl_inv
    (fun (acc : List (Nat × Nat) × (Nat → Nat)) => ∀ w ∈ acc.1, w.1 < 32 ∧ w.2 < 361)
    (fun j => j < 361) _ ?_ (List.range 361) (fun a ha => List.mem_range.mp ha)
    ([], fun _ => 0) (by simp) w hw
  intro acc j hj hacc w2 hw2
  simp only [List.mem_append, List.mem_cons, List.mem_map] at hw2
  rcases hw2 with hold | hrest
  · exact hacc w2 hold
  · rcases hrest with h0 | h1 | hmap
    · rw [h0]
      exact ⟨by norm_num, hs j hj⟩
    · rw [h1]
      exact ⟨by norm_num, hs j hj⟩
    · rcases hmap with ⟨l, hl, hw3⟩
      rw [← hw3]
      exact ⟨featurePlanesAt_lt b color j acc.2 l hl, hs j hj⟩

theorem featureWritesHistory_bound (b : Board) (color : Color) (sym : Nat → Nat)
    (hs : ∀ j, j < 361 → sym j < 361) :
    ∀ w ∈ featureWritesHistory b color sym, w.1 < 32 ∧ w.2 < 361 := by
  intro w hw
  rw [featureWritesHistory] at hw
  rw [List.mem_flatten] at hw
  rcases hw with ⟨sub, hsub, hw⟩
  rw [List.mem_map] at hsub
  rcases hsub with ⟨iv, hiv, hsub⟩
  have hi6 : iv.1 < 6 := by
    have := (List.of_mem_zip hiv).1
    exact List.mem_range.mp this
  rw [← hsub] at hw
  refine foldr_inv (fun acc => ∀ w ∈ acc, w.1 < 32 ∧ w.2 < 361) (fun j => j < 361)
    _ ?_ (List.range 361) (fun a ha => List.mem_range.mp ha) [] (by simp) w hw
  intro j acc hj hacc w2 hw2
  split at hw2
  · exact hacc w2 hw2
  · split at hw2
    · rcases List.mem_cons.mp hw2 with h | h
      · rw [h]
        exact ⟨by omega, hs j hj⟩
      · exact hacc w2 h
    · rcases List.mem_cons.mp hw2 with h | h
      · rw [h]
        exact ⟨by omega, hs j hj⟩
      · exact hacc w2 h

/-- C10: for plane `c < 32` and cell `i < 361` both `CHW::index` and
`HWC::index` stay below `32 * 361` and are injective as functions of the
pair `(c, i)`; moreover every write position `(l, other)` that
`get_features` produces (with a symmetry table mapping on-board indices to
on-board indices) satisfies `l < 32` and `other < 361`, so every write lands
inside the allocated 32 × 361 tensor and writes for distinct
`(plane, transformed cell)` pairs never alias. -/
theorem claimC10 (c i c2 i2 : Nat) (hc : c < 32) (hi : i < 361)
    (hc2 : c2 < 32) (hi2 : i2 < 361) (b : Board) (color : Color) (sym : Nat → Nat)
    (hs : ∀ j, j < 361 → sym j < 361) :
    CHW.index c i < 32 * 361 ∧ HWC.index c i < 32 * 361 ∧
    (CHW.index c i = CHW.index c2 i2 → c = c2 ∧ i = i2) ∧
    (HWC.index c i = HWC.index c2 i2 → c = c2 ∧ i = i2) ∧
    (∀ w ∈ featureWrites b color sym,
      w.1 < 32 ∧ w.2 < 361 ∧ CHW.index w.1 w.2 < 32 * 361 ∧ HWC.index w.1 w.2 < 32 * 361) := by
  refine ⟨?_, ?_, ?_, ?_, ?_⟩
  · rw [CHW.index]; omega
  · rw [HWC.index]; omega
  · rw [CHW.index, CHW.index]; omega
  · rw [HWC.index, HWC.index]; omega
  · intro w hw
    have hb : w.1 < 32 ∧ w.2 < 361 := by
      rw [featureWrites, List.mem_append] at hw
      rcases hw with h | h
      · exact featureWritesFirst_bound b color sym hs w h
      · exact featureWritesHistory_bound b color sym hs w h
    refine ⟨hb.1, hb.2, ?_, ?_⟩
    · rw [CHW.index]; omega
    · rw [HWC.index]; omega

theorem xor_foldr_zeros : ∀ l : List Nat, (∀ x ∈ l, x = 0) → l.foldr (· ^^^ ·) 0 = 0 := by
  intro l
  induction l with
  | nil => intro _; rfl
  | cons a l ih =>
    intro h
    rw [List.foldr_cons, h a (List.mem_cons_self a l),
      ih (fun x hx => h x (List.mem_cons_of_mem a hx))]
    rfl

theorem occupiedXor_allEmpty {v : Nat → Nat} (h : allEmpty v) : occupiedXor v = 0 := by
  rw [occupiedXor]
  apply xor_foldr_zeros
  intro x hx
  rw [List.mem_map] at hx
  rcases hx with ⟨i, hi, hx⟩
  have hv := h i (List.mem_range.mp hi)
  rw [← hx, zContrib, hv]
  norm_num

theorem score_foldl_count (bd wd : Nat → Nat) (l : List Nat) (a b : Nat) :
    l.foldl
      (fun p i =>
        if bd i = 0 then (p.1 + 1, p.2)
        else if wd i = 0 then (p.1, p.2 + 1)
        else if wd i = 255 then (p.1 + 1, p.2)
        else if bd i = 255 then (p.1, p.2 + 1)
        else p)
      (a, b)
    = (a + l.countP (fun i => cellOwner bd wd i == some Color.black),
       b + l.countP (fun i => cellOwner bd wd i == some Color.white)) := by
  induction l generalizing a b with
  | nil => simp
  | cons i l ih =>
    rw [List.foldl_cons, List.countP_cons, List.countP_cons]
    by_cases h1 : bd i = 0
    · rw [if_pos h1, ih]
      have hb : (cellOwner bd wd i == some Color.black) = true := by
        rw [cellOwner, if_pos h1]; rfl
      have hw : (cellOwner bd wd i == some Color.white) = false := by
        rw [cellOwner, if_pos h1]; rfl
      rw [hb, hw, Prod.mk.injEq]
      refine ⟨?_, ?_⟩ <;> simp <;> omega
    · by_cases h2 : wd i = 0
      · rw [if_neg h1, if_pos h2, ih]
        have hb : (cellOwner bd wd i == some Color.black) = false := by
          rw [cellOwner, if_neg h1, if_pos h2]; rfl
        have hw : (cellOwner bd wd i == some Color.white) = true := by
          rw [cellOwner, if_neg h1, if_pos h2]; rfl
        rw [hb, hw, Prod.mk.injEq]
        refine ⟨?_, ?_⟩ <;> simp <;> omega
      · by_cases h3 : wd i = 255
        · rw [if_neg h1, if_neg h2, if_pos h3, ih]
          have hb : (cellOwner bd wd i == some Color.black) = true := by
            rw [cellOwner, if_neg h1, if_neg h2, if_pos h3]; rfl
          have hw : (cellOwner bd wd i == some Color.white) = false := by
            rw [cellOwner, if_neg h1, if_neg h2, if_pos h3]; rfl
          rw [hb, hw, Prod.mk.injEq]
          refine ⟨?_, ?_⟩ <;> simp <;> omega
        · by_cases h4 : bd i = 255
          · rw [if_neg h1, if_neg h2, if_neg h3, if_pos h4, ih]
            have hb : (cellOwner bd wd i == some Color.black) = false := by
              rw [cellOwner, if_neg h1, if_neg h2, if_neg h3, if_pos h4]; rfl
            have hw : (cellOwner bd wd i == some Color.white) = true := by
              rw [cellOwner, if_neg h1, if_neg h2, if_neg h3, if_pos h4]; rfl
            rw [hb, hw, Prod.mk.injEq]
            refine ⟨?_, ?_⟩ <;> simp <;> omega
          · rw [if_neg h1, if_neg h2, if_neg h3, if_neg h4, ih]
            have hb : (cellOwner bd wd i == some Color.black) = false := by
              rw [cellOwner, if_neg h1, if_neg h2, if_neg h3, if_neg h4]; rfl
            have hw : (cellOwner bd wd i == some Color.white) = false := by
              rw [cellOwner, if_neg h1, if_neg h2, if_neg h3, if_neg h4]; rfl
            rw [hb, hw, Prod.mk.injEq]
            refine ⟨?_, ?_⟩ <;> simp <;> omega

/-- C5 counterexample: the claim asserts the per-cell ownership formula for
every board, but on the fresh (stone-free) board the formula assigns every
cell to black (every cell is unreachable from white), giving `(361, 0)`,
while `get_score` returns `(0, 0)`; the two parts of the claim contradict
each other there, and the code follows the `(0, 0)` part. -/
theorem claimC5_counterexample :
    Board.new.get_score = (0, 0) ∧ scoreSpec Board.new = (361, 0) ∧
    Board.new.get_score ≠ scoreSpec Board.new := by
  refine ⟨rfl, ?_, ?_⟩
  · set_option maxRecDepth 100000 in decide
  · intro h
    have h2 : scoreSpec Board.new = (361, 0) := by
      set_option maxRecDepth 100000 in decide
    rw [show Board.new.get_score = (0, 0) from rfl, h2] at h
    have h3 : (0 : Nat) = 361 := congrArg Prod.fst h
    omega

/-- C5 (amended): whenever the board satisfies the data-model Zobrist
invariant (the hash is the XOR over the occupied cells) and the external
Zobrist table is collision-free on the realised position (hash 0 only for
the stone-free board), `get_score` returns `(0, 0)` on the stone-free board
and otherwise counts each of the 361 cells by the claim's per-cell chain:
black when the distance-to-black map is 0, else white when the
distance-to-white map is 0, else black when the cell is unreachable from
white, else white when the cell is unreachable from black, else neither. -/
theorem claimC5 (b : Board)
    (h1 : b.zobrist_hash = occupiedXor b.vertices)
    (h2 : occupiedXor b.vertices = 0 → allEmpty b.vertices) :
    (allEmpty b.vertices → b.get_score = (0, 0)) ∧
    (¬ allEmpty b.vertices → b.get_score = scoreSpec b) := by
  constructor
  · intro he
    rw [Board.get_score, if_neg]
    simp only [ne_eq, not_not]
    rw [h1, occupiedXor_allEmpty he]
  · intro hne
    have hz : occupiedXor b.vertices ≠ 0 := fun h0 => hne (h2 h0)
    rw [Board.get_score,
      if_pos (show b.zobrist_hash ≠ 0 by rw [h1]; exact hz),
      score_foldl_count (b.get_territory_distance Color.black)
        (b.get_territory_distance Color.white) (List.range 361) 0 0,
      scoreSpec, Nat.zero_add, Nat.zero_add]

/-- Witness for C5 at a one-stone board. -/
theorem claimC5_witness :
    (allEmpty c5WitnessBoard.vertices → c5WitnessBoard.get_score = (0, 0)) ∧
    (¬ allEmpty c5WitnessBoard.vertices → c5WitnessBoard.get_score = scoreSpec c5WitnessBoard) :=
  claimC5 c5WitnessBoard
    (by set_option maxRecDepth 100000 in decide)
    (by set_option maxRecDepth 100000 in decide)

/-- Witness for C10: concrete planes and cells, the fresh board, and the
identity symmetry table. -/
theorem claimC10_witness :
    CHW.index 3 100 < 32 * 361 ∧ HWC.index 3 100 < 32 * 361 ∧
    (CHW.index 3 100 = CHW.index 3 100 → 3 = 3 ∧ 100 = 100) ∧
    (HWC.index 3 100 = HWC.index 3 100 → 3 = 3 ∧ 100 = 100) ∧
    (∀ w ∈ featureWrites Board.new Color.black (fun j => j),
      w.1 < 32 ∧ w.2 < 361 ∧ CHW.index w.1 w.2 < 32 * 361 ∧ HWC.index w.1 w.2 < 32 * 361) :=
  claimC10 3 100 3 100 (by norm_num) (by norm_num) (by norm_num) (by norm_num)
    Board.new Color.black (fun j => j) (fun j hj => hj)

/-!
### Neighbour-table lemmas
-/

theorem tblN_cases (s : Nat) : tblN s = s + 19 ∧ s + 19 < 361 ∨ tblN s = 361 := by
  rw [tblN]; split
  · exact Or.inl ⟨rfl, by omega⟩
  · exact Or.inr rfl

theorem tblE_cases (s : Nat) :
    tblE s = s + 1 ∧ s % 19 < 18 ∧ s < 361 ∨ tblE s = 361 := by
  rw [tblE]; split
  · rename_i h
    exact Or.inl ⟨rfl, h.1, h.2⟩
  · exact Or.inr rfl

theorem tblS_cases (s : Nat) :
    tblS s = s - 19 ∧ 19 ≤ s ∧ s < 361 ∨ tblS s = 361 := by
  rw [tblS]; split
  · rename_i h
    exact Or.inl ⟨rfl, h.1, h.2⟩
  · exact Or.inr rfl

theorem tblW_cases (s : Nat) :
    tblW s = s - 1 ∧ s % 19 ≠ 0 ∧ s < 361 ∨ tblW s = 361 := by
  rw [tblW]; split
  · rename_i h
    exact Or.inl ⟨rfl, h.1, h.2⟩
  · exact Or.inr rfl

theorem sentinel_361 {v : Nat → Nat} (hs : sentinelsOK v) : v 361 = 255 :=
  hs 0 (by norm_num)

/-- A neighbour-table value is on-board or the sentinel 361. -/
theorem tbl_lt_361 {i m : Nat} (h : isNbrOf i m) (hm : m ≠ 361) : m < 361 := by
  rcases h with h | h | h | h
  · rcases tblN_cases i with ⟨h1, h2⟩ | h1 <;> omega
  · rcases tblE_cases i with ⟨h1, h2, h3⟩ | h1
    · have hne : i ≠ 360 := by
        intro he
        rw [he] at h2
        omega
      omega
    · omega
  · rcases tblS_cases i with ⟨h1, h2, h3⟩ | h1 <;> omega
  · rcases tblW_cases i with ⟨h1, h2, h3⟩ | h1 <;> omega

/-- If the vertex at the table neighbour of an arbitrary cell is not the
off-board marker then that neighbour is on-board. -/
theorem nbr_on_board {v : Nat → Nat} (hs : sentinelsOK v) {i m : Nat}
    (h : isNbrOf i m) (hv : v m ≠ 255) : m < 361 := by
  refine tbl_lt_361 h ?_
  intro h361
  rw [h361, sentinel_361 hs] at hv
  exact hv rfl

/-!
### The two-liberty scan
-/

theorem scanTwoList_append (l1 l2 : List Nat) (prev : Nat) :
    scanTwoList (l1 ++ l2) prev
      = (match scanPrev l1 prev with
         | none => true
         | some p => scanTwoList l2 p) := by
  induction l1 generalizing prev with
  | nil => rfl
  | cons e l ih =>
    rw [List.cons_append, scanTwoList, scanPrev]
    by_cases h : prev ≠ 65535 ∧ prev ≠ e
    · rw [if_pos h, if_pos h]
    · rw [if_neg h, if_neg h, ih]

theorem bindConsEq (x : Nat) (xs : List Nat) (g : Nat → List Nat) :
    (x :: xs).bind g = g x ++ xs.bind g := rfl

theorem hasTwoLibsAux_eq_scan (v f : Nat → Nat) (index : Nat) :
    ∀ fuel current prev,
      hasTwoLibsAux v f index fuel current prev
        = scanTwoList ((cycleListAux f index fuel current).bind (libsOf v)) prev := by
  intro fuel
  induction fuel with
  | zero => intro current prev; rfl
  | succ fuel ih =>
    intro current prev
    rw [hasTwoLibsAux, cycleListAux, bindConsEq, scanTwoList_append]
    cases hsp : scanPrev (libsOf v current) prev with
    | none => rfl
    | some p =>
      dsimp only
      by_cases h : f current = index
      · rw [if_pos h, if_pos h]
        rfl
      · rw [if_neg h, if_neg h, ih]

theorem scanTwoList_spec : ∀ (l : List Nat) (prev : Nat), (∀ x ∈ l, x ≠ 65535) →
    (scanTwoList l prev = true ↔
      ((prev ≠ 65535 ∧ ∃ x ∈ l, x ≠ prev) ∨ ∃ x ∈ l, ∃ y ∈ l, x ≠ y)) := by
  intro l
  induction l with
  | nil => simp [scanTwoList]
  | cons e l ih =>
    intro prev hne
    have hel : ∀ x ∈ l, x ≠ 65535 := fun x hx => hne x (List.mem_cons_of_mem e hx)
    have hee : e ≠ 65535 := hne e (List.mem_cons_self e l)
    rw [scanTwoList]
    by_cases h : prev ≠ 65535 ∧ prev ≠ e
    · rw [if_pos h]
      simp only [true_iff]
      exact Or.inl ⟨h.1, e, List.mem_cons_self e l, fun he => h.2 he.symm⟩
    · rw [if_neg h, ih e hel]
      rw [not_and_or, not_not, not_not] at h
      constructor
      · rintro (⟨_, x, hx, hxe⟩ | ⟨x, hx, ym, hy, hxy⟩)
        · rcases h with h | h
          · exact Or.inr ⟨e, List.mem_cons_self e l, x, List.mem_cons_of_mem e hx,
              fun hex => hxe hex.symm⟩
          · exact Or.inl ⟨h ▸ hee, x, List.mem_cons_of_mem e hx, h ▸ hxe⟩
        · exact Or.inr ⟨x, List.mem_cons_of_mem e hx, ym, List.mem_cons_of_mem e hy, hxy⟩
      · rintro (⟨hp, x, hx, hxp⟩ | ⟨x, hx, ym, hy, hxy⟩)
        · rcases h with h | h
          · exact absurd h hp
          · subst h
            rcases List.mem_cons.mp hx with hx1 | hx1
            · exact absurd hx1 hxp
            · exact Or.inl ⟨hee, x, hx1, hxp⟩
        · rcases List.mem_cons.mp hx with hx1 | hx1 <;> rcases List.mem_cons.mp hy with hy1 | hy1
          · exact absurd (hx1.trans hy1.symm) hxy
          · subst hx1
            exact Or.inl ⟨hee, ym, hy1, fun hh => hxy hh.symm⟩
          · subst hy1
            exact Or.inl ⟨hee, x, hx1, hxy⟩
          · exact Or.inr ⟨x, hx1, ym, hy1, hxy⟩

/-!
### Liberty observations
-/

theorem libsOf_dir {v : Nat → Nat} (hs : sentinelsOK v) {t r e : Nat}
    (hcase : t = r ∨ t = 361) (h : e ∈ (if v t = 0 then [r] else [])) :
    t = e ∧ v e = 0 := by
  by_cases hc : v t = 0
  · rw [if_pos hc] at h
    have he : e = r := List.mem_singleton.mp h
    rcases hcase with h1 | h1
    · exact ⟨by rw [h1, he], by rw [he, ← h1]; exact hc⟩
    · rw [h1, sentinel_361 hs] at hc
      exact absurd hc (by norm_num)
  · rw [if_neg hc] at h
    exact absurd h (List.not_mem_nil e)

theorem libsOf_dir_rev {v : Nat → Nat} (hs : sentinelsOK v) {t r e : Nat}
    (hcase : t = r ∨ t = 361) (ht : t = e) (hv : v e = 0) :
    e ∈ (if v t = 0 then [r] else []) := by
  rcases hcase with h1 | h1
  · rw [if_pos (by rw [ht]; exact hv)]
    rw [← h1, ht]
    exact List.mem_singleton.mpr rfl
  · rw [h1] at ht
    rw [← ht, sentinel_361 hs] at hv
    exact absurd hv (by norm_num)

theorem mem_libsOf {v : Nat → Nat} (hs : sentinelsOK v) (s e : Nat) :
    e ∈ libsOf v s ↔ isNbrOf s e ∧ v e = 0 := by
  have hN : tblN s = s + 19 ∨ tblN s = 361 := by
    rcases tblN_cases s with ⟨h1, _⟩ | h1
    · exact Or.inl h1
    · exact Or.inr h1
  have hE : tblE s = s + 1 ∨ tblE s = 361 := by
    rcases tblE_cases s with ⟨h1, _⟩ | h1
    · exact Or.inl h1
    · exact Or.inr h1
  have hS : tblS s = s - 19 ∨ tblS s = 361 := by
    rcases tblS_cases s with ⟨h1, _⟩ | h1
    · exact Or.inl h1
    · exact Or.inr h1
  have hW : tblW s = s - 1 ∨ tblW s = 361 := by
    rcases tblW_cases s with ⟨h1, _⟩ | h1
    · exact Or.inl h1
    · exact Or.inr h1
  rw [libsOf]
  constructor
  · intro h
    rcases List.mem_append.mp h with h | h
    · have hd := libsOf_dir hs hN h
      exact ⟨Or.inl hd.1, hd.2⟩
    rcases List.mem_append.mp h with h | h
    · have hd := libsOf_dir hs hE h
      exact ⟨Or.inr (Or.inl hd.1), hd.2⟩
    rcases List.mem_append.mp h with h | h
    · have hd := libsOf_dir hs hS h
      exact ⟨Or.inr (Or.inr (Or.inl hd.1)), hd.2⟩
    · have hd := libsOf_dir hs hW h
      exact ⟨Or.inr (Or.inr (Or.inr hd.1)), hd.2⟩
  · rintro ⟨hnbr, hv⟩
    rcases hnbr with h | h | h | h
    · exact List.mem_append.mpr (Or.inl (libsOf_dir_rev hs hN h hv))
    · exact List.mem_append.mpr (Or.inr (List.mem_append.mpr
        (Or.inl (libsOf_dir_rev hs hE h hv))))
    · exact List.mem_append.mpr (Or.inr (List.mem_append.mpr
        (Or.inr (List.mem_append.mpr (Or.inl (libsOf_dir_rev hs hS h hv))))))
    · exact List.mem_append.mpr (Or.inr (List.mem_append.mpr
        (Or.inr (List.mem_append.mpr (Or.inr (libsOf_dir_rev hs hW h hv))))))

theorem libsOf_lt {v : Nat → Nat} (hs : sentinelsOK v) {s e : Nat}
    (h : e ∈ libsOf v s) : e < 361 := by
  have hd := (mem_libsOf hs s e).mp h
  refine tbl_lt_361 hd.1 ?_
  intro h361
  rw [h361, sentinel_361 hs] at hd
  exact absurd hd.2 (by norm_num)

/-!
### Cycle canonical form under the board invariant
-/

theorem ArrInv.iter_mem {v f : Nat → Nat} (h : ArrInv v f) {i : Nat}
    (hi : i < 361) (ho : v i ≠ 0) : ∀ k, f^[k] i < 361 ∧ v (f^[k] i) = v i := by
  intro k
  induction k with
  | zero => exact ⟨hi, rfl⟩
  | succ k ih =>
    rw [Function.iterate_succ_apply']
    have hm := h.2.2.1 (f^[k] i) ih.1 (by rw [ih.2]; exact ho)
    exact ⟨hm.1, by rw [hm.2, ih.2]⟩

theorem ArrInv.peel {v f : Nat → Nat} (h : ArrInv v f) {i : Nat}
    (hi : i < 361) (ho : v i ≠ 0) :
    ∀ a b, a ≤ b → f^[a] i = f^[b] i → f^[b - a] i = i := by
  intro a
  induction a with
  | zero =>
    intro b _ he
    rw [Nat.sub_zero, ← he]
    rfl
  | succ a ih =>
    intro b hab he
    obtain ⟨b2, rfl⟩ : ∃ b2, b = b2 + 1 := ⟨b - 1, by omega⟩
    rw [Function.iterate_succ_apply', Function.iterate_succ_apply'] at he
    have h1 := h.iter_mem hi ho a
    have h2 := h.iter_mem hi ho b2
    have heq := h.2.2.2 (f^[a] i) h1.1 (by rw [h1.2]; exact ho)
      (f^[b2] i) h2.1 (by rw [h2.2]; exact ho) he
    have hsub : b2 + 1 - (a + 1) = b2 - a := by omega
    rw [hsub]
    exact ih b2 (by omega) heq

theorem ArrInv.exists_return {v f : Nat → Nat} (h : ArrInv v f) {i : Nat}
    (hi : i < 361) (ho : v i ≠ 0) : ∃ k, 0 < k ∧ k ≤ 361 ∧ f^[k] i = i := by
  have hmaps : ∀ t ∈ Finset.range 362, f^[t] i ∈ Finset.range 361 := by
    intro t _
    exact Finset.mem_range.mpr (h.iter_mem hi ho t).1
  have hcard : (Finset.range 361).card < (Finset.range 362).card := by simp
  obtain ⟨a, ha, b, hb, hne, he⟩ :=
    Finset.exists_ne_map_eq_of_card_lt_of_maps_to hcard hmaps
  rcases Nat.lt_or_ge a b with hab | hab
  · exact ⟨b - a, by omega,
      by have := Finset.mem_range.mp hb; omega, h.peel hi ho a b (by omega) he⟩
  · have hba : b < a := by omega
    exact ⟨a - b, by omega,
      by have := Finset.mem_range.mp ha; omega, h.peel hi ho b a (by omega) he.symm⟩

theorem cycleListAux_canonical {f : Nat → Nat} {i k0 : Nat}
    (hret : f^[k0] i = i) (hmin : ∀ j, 0 < j → j < k0 → f^[j] i ≠ i) :
    ∀ fuel t, t < k0 → k0 - t ≤ fuel →
      cycleListAux f i fuel (f^[t] i)
        = (List.range (k0 - t)).map (fun u => f^[t + u] i) := by
  intro fuel
  induction fuel with
  | zero =>
    intro t ht hf
    omega
  | succ fuel ih =>
    intro t ht hf
    rw [cycleListAux]
    have hstep : f (f^[t] i) = f^[t + 1] i := (Function.iterate_succ_apply' f t i).symm
    by_cases hend : t + 1 = k0
    · have hstop : f (f^[t] i) = i := by rw [hstep, hend, hret]
      rw [if_pos hstop]
      have h1 : k0 - t = 1 := by omega
      have hr1 : List.range 1 = [0] := rfl
      rw [h1, hr1]
      simp
    · have hne : f (f^[t] i) ≠ i := by
        rw [hstep]
        exact hmin (t + 1) (by omega) (by omega)
      rw [if_neg hne, hstep, ih (t + 1) (by omega) (by omega)]
      have hk : k0 - t = (k0 - (t + 1)) + 1 := by omega
      have htail : List.map (fun u => f^[t + 1 + u] i) (List.range (k0 - (t + 1)))
          = List.map ((fun u => f^[t + u] i) ∘ Nat.succ) (List.range (k0 - (t + 1))) := by
        apply List.map_congr_left
        intro u _
        simp only [Function.comp_apply, Nat.succ_eq_add_one]
        exact congrArg (fun z => f^[z] i) (by omega)
      rw [hk, List.range_succ_eq_map, List.map_cons, List.map_map, htail]
      simp

theorem cycleList_canonical {v f : Nat → Nat} (h : ArrInv v f) {i : Nat}
    (hi : i < 361) (ho : v i ≠ 0) :
    ∃ k0, 0 < k0 ∧ k0 ≤ 361 ∧ f^[k0] i = i ∧
      (∀ j, 0 < j → j < k0 → f^[j] i ≠ i) ∧
      cycleList f i = (List.range k0).map (fun u => f^[u] i) := by
  obtain ⟨k, hk0, hk361, hret⟩ := h.exists_return hi ho
  have hex : ∃ j, 0 < j ∧ f^[j] i = i := ⟨k, hk0, hret⟩
  have hfind := Nat.find_spec hex
  have hle : Nat.find hex ≤ k := Nat.find_min' hex ⟨hk0, hret⟩
  have hmin : ∀ j, 0 < j → j < Nat.find hex → f^[j] i ≠ i := by
    intro j hj0 hjlt heq
    exact Nat.find_min hex hjlt ⟨hj0, heq⟩
  refine ⟨Nat.find hex, hfind.1, by omega, hfind.2, hmin, ?_⟩
  have hc := cycleListAux_canonical hfind.2 hmin 361 0 hfind.1 (by omega)
  rw [cycleList]
  have h0 : f^[0] i = i := rfl
  rw [h0] at hc
  rw [hc]
  simp

theorem cycleList_mem_of_canonical {v f : Nat → Nat} (h : ArrInv v f) {i : Nat}
    (hi : i < 361) (ho : v i ≠ 0) :
    ∀ s ∈ cycleList f i, s < 361 ∧ v s = v i := by
  obtain ⟨k0, _, _, _, _, hcl⟩ := cycleList_canonical h hi ho
  intro s hs
  rw [hcl, List.mem_map] at hs
  obtain ⟨u, _, hu⟩ := hs
  rw [← hu]
  exact h.iter_mem hi ho u

theorem cycleList_nodup {v f : Nat → Nat} (h : ArrInv v f) {i : Nat}
    (hi : i < 361) (ho : v i ≠ 0) : (cycleList f i).Nodup := by
  obtain ⟨k0, hk0, _, hret, hmin, hcl⟩ := cycleList_canonical h hi ho
  rw [hcl]
  refine List.Nodup.map_on ?_ (List.nodup_range k0)
  intro a ha b hb heq
  rw [List.mem_range] at ha hb
  by_contra hne
  rcases Nat.lt_or_ge a b with hab | hab
  · have := h.peel hi ho a b (by omega) heq
    exact hmin (b - a) (by omega) (by omega) this
  · have hba : b < a := by omega
    have := h.peel hi ho b a (by omega) heq.symm
    exact hmin (a - b) (by omega) (by omega) this

theorem cycleListAux_succ (f : Nat → Nat) (index fuel current : Nat) :
    cycleListAux f index (fuel + 1) current
      = current :: (if f current = index then [] else cycleListAux f index fuel (f current)) :=
  rfl

theorem self_mem_cycleList (f : Nat → Nat) (i : Nat) : i ∈ cycleList f i := by
  rw [cycleList, show (361 : Nat) = 360 + 1 from rfl, cycleListAux_succ]
  exact List.mem_cons_self _ _

theorem mem_bind_iff (l : List Nat) (g : Nat → List Nat) (e : Nat) :
    e ∈ l.bind g ↔ ∃ s ∈ l, e ∈ g s := by
  induction l with
  | nil => simp
  | cons a l ih =>
    rw [bindConsEq, List.mem_append, ih]
    constructor
    · rintro (h | ⟨s, hs, he⟩)
      · exact ⟨a, List.mem_cons_self a l, h⟩
      · exact ⟨s, List.mem_cons_of_mem a hs, he⟩
    · rintro ⟨s, hs, he⟩
      rcases List.mem_cons.mp hs with h | h
      · exact Or.inl (h ▸ he)
      · exact Or.inr ⟨s, h, he⟩

/-- Membership in the liberty observations of the group walk agrees with the
declarative liberty set. -/
theorem obs_mem_libFinset {v f : Nat → Nat} (h : ArrInv v f) {m : Nat} (e : Nat) :
    e ∈ (cycleList f m).bind (libsOf v) ↔ e ∈ libFinset v f m := by
  rw [mem_bind_iff, libFinset, Finset.mem_filter, Finset.mem_range]
  constructor
  · rintro ⟨s, hsl, hse⟩
    have hd := (mem_libsOf h.2.1 s e).mp hse
    have he361 : e < 361 := by
      refine tbl_lt_361 hd.1 ?_
      intro h361
      rw [h361, sentinel_361 h.2.1] at hd
      exact absurd hd.2 (by norm_num)
    exact ⟨by omega, hd.2, s, hsl, hd.1⟩
  · rintro ⟨he368, hv0, s, hsl, hnb⟩
    exact ⟨s, hsl, (mem_libsOf h.2.1 s e).mpr ⟨hnb, hv0⟩⟩

/-- The `_has_two_liberties` walk detects exactly the groups whose liberty
set has at least two elements. -/
theorem hasTwo_iff_card {v f : Nat → Nat} (h : ArrInv v f) {m : Nat}
    (hm : m < 361) (ho : v m ≠ 0) :
    hasTwoLiberties v f m = true ↔ 2 ≤ (libFinset v f m).card := by
  have hscan := hasTwoLibsAux_eq_scan v f m 361 m 65535
  rw [hasTwoLiberties, hscan]
  have hobs : cycleListAux f m 361 m = cycleList f m := rfl
  rw [hobs]
  have hne : ∀ x ∈ (cycleList f m).bind (libsOf v), x ≠ 65535 := by
    intro x hx
    obtain ⟨s, _, hs⟩ := (mem_bind_iff _ _ _).mp hx
    have := libsOf_lt h.2.1 hs
    omega
  rw [scanTwoList_spec _ 65535 hne]
  constructor
  · rintro (⟨hfalse, _⟩ | ⟨x, hx, y, hy, hxy⟩)
    · exact absurd rfl hfalse
    · exact Finset.one_lt_card.mpr
        ⟨x, (obs_mem_libFinset h x).mp hx, y, (obs_mem_libFinset h y).mp hy, hxy⟩
  · intro hcard
    obtain ⟨x, hx, y, hy, hxy⟩ := Finset.one_lt_card.mp hcard
    exact Or.inr ⟨x, (obs_mem_libFinset h x).mpr hx, y, (obs_mem_libFinset h y).mpr hy, hxy⟩

/-- The move vertex itself is a liberty of every occupied cardinal
neighbour's group. -/
theorem center_mem_libFinset {v f : Nat → Nat} (h : ArrInv v f) {i m : Nat}
    (hi : i < 361) (hvi : v i = 0) (hnbr : isNbrOf i m) (hom : v m ≠ 255) :
    i ∈ libFinset v f m := by
  have hm361 : m < 361 := nbr_on_board h.2.1 hnbr hom
  rw [libFinset, Finset.mem_filter, Finset.mem_range]
  refine ⟨by omega, hvi, m, self_mem_cycleList f m, ?_⟩
  rcases hnbr with hd | hd | hd | hd
  · rcases tblN_cases i with ⟨h1, h2⟩ | h1
    · rw [h1] at hd
      refine Or.inr (Or.inr (Or.inl ?_))
      rw [← hd, tblS]
      rw [if_pos (by omega)]
      omega
    · omega
  · rcases tblE_cases i with ⟨h1, h2, h3⟩ | h1
    · rw [h1] at hd
      refine Or.inr (Or.inr (Or.inr ?_))
      rw [← hd, tblW]
      rw [if_pos (by constructor <;> omega)]
      omega
    · omega
  · rcases tblS_cases i with ⟨h1, h2, h3⟩ | h1
    · rw [h1] at hd
      refine Or.inl ?_
      rw [← hd, tblN]
      rw [if_pos (by omega)]
      omega
    · omega
  · rcases tblW_cases i with ⟨h1, h2, h3⟩ | h1
    · rw [h1] at hd
      refine Or.inr (Or.inl ?_)
      rw [← hd, tblE]
      rw [if_pos (by constructor <;> omega)]
      omega
    · omega

theorem iteBool (p x : Bool) : (if p = true then true else x) = (p || x) := by
  cases p <;> simp

/-- The compact per-direction test of `_is_valid` — a neighbour saves the
move when `(neighbour == own color) == has_two_liberties(group)` — agrees
with the specification's two cases: a friendly group with at least two
liberties or an opponent group with exactly one. -/
theorem saveDir_iff (b : Board) (c : Color) {i m t : Nat} (hw : b.WF)
    (hi : i < 361) (hvi : b.vertices i = 0) (hnbr : isNbrOf i m)
    (hocc : b.vertices m ≠ 0) (ht : b.vertices m ≠ 255 → m = t) :
    (((b.vertices m != 255) &&
        ((b.vertices m == c.val) == hasTwoLiberties b.vertices b.next_vertex t)) = true)
      ↔ ((b.vertices m = c.val ∧ 2 ≤ (libFinset b.vertices b.next_vertex m).card) ∨
         (b.vertices m = c.opposite.val ∧ (libFinset b.vertices b.next_vertex m).card = 1)) := by
  by_cases h255 : b.vertices m = 255
  · constructor
    · intro hsv
      rw [h255] at hsv
      simp at hsv
    · rintro (⟨hval, _⟩ | ⟨hval, _⟩)
      · rw [h255] at hval
        cases c <;> simp [Color.val] at hval
      · rw [h255] at hval
        cases c <;> simp [Color.val, Color.opposite] at hval
  · have hmt := ht h255
    subst hmt
    have hm361 : m < 361 := nbr_on_board hw.2.1 hnbr h255
    have hvm12 : b.vertices m = 1 ∨ b.vertices m = 2 := by
      rcases hw.1 m hm361 with h0 | h1 | h2
      · exact absurd h0 hocc
      · exact Or.inl h1
      · exact Or.inr h2
    have h2lib := hasTwo_iff_card hw hm361 hocc
    have hbne : (b.vertices m != 255) = true := by
      simp only [bne_iff_ne, ne_eq]
      exact h255
    by_cases hcv : b.vertices m = c.val
    · have hbeq : (b.vertices m == c.val) = true := by simp [hcv]
      constructor
      · intro hsv
        rw [Bool.and_eq_true, hbeq] at hsv
        refine Or.inl ⟨hcv, h2lib.mp ?_⟩
        have := hsv.2
        simpa using this
      · rintro (⟨_, hcard⟩ | ⟨hop, _⟩)
        · rw [Bool.and_eq_true, hbeq, hbne]
          refine ⟨rfl, ?_⟩
          rw [h2lib.mpr hcard]
          rfl
        · exfalso
          rw [hcv] at hop
          cases c <;> simp [Color.val, Color.opposite] at hop
    · have hop : b.vertices m = c.opposite.val := by
        cases c <;> rcases hvm12 with h1 | h1 <;>
          simp [Color.val, Color.opposite, h1] at hcv ⊢
      have hbeq : (b.vertices m == c.val) = false := by simp [hcv]
      have hcenter : 1 ≤ (libFinset b.vertices b.next_vertex m).card :=
        Finset.card_pos.mpr ⟨i, center_mem_libFinset hw hi hvi hnbr h255⟩
      constructor
      · intro hsv
        rw [Bool.and_eq_true, hbeq] at hsv
        have hfalse : hasTwoLiberties b.vertices b.next_vertex m = false := by
          cases hht : hasTwoLiberties b.vertices b.next_vertex m
          · rfl
          · rw [hht] at hsv
            exact absurd hsv.2 (by norm_num)
        have hn2 : ¬ 2 ≤ (libFinset b.vertices b.next_vertex m).card := by
          rw [← h2lib, hfalse]
          norm_num
        exact Or.inr ⟨hop, by omega⟩
      · rintro (⟨hcv2, _⟩ | ⟨_, hcard⟩)
        · exact absurd hcv2 hcv
        · rw [Bool.and_eq_true, hbeq, hbne]
          refine ⟨rfl, ?_⟩
          have hfalse : hasTwoLiberties b.vertices b.next_vertex m = false := by
            cases hht : hasTwoLiberties b.vertices b.next_vertex m
            · rfl
            · have := h2lib.mp hht
              omega
          rw [hfalse]
          rfl

/-- C1: for every well-formed board, every color and every on-board index
`i = 19*y + x`, `_is_valid(c, i)` returns true iff the vertex at `i` is
empty and a cardinal neighbour is empty, or some friendly cardinal
neighbour's group has at least two liberties, or some opponent cardinal
neighbour's group has exactly one liberty. -/
theorem claimC1 (b : Board) (c : Color) (x y : Nat) (hw : b.WF)
    (hx : x < 19) (hy : y < 19) :
    b._is_valid c (19 * y + x) = true ↔ pseudoLegalSpec b c (19 * y + x) := by
  have hi : 19 * y + x < 361 := by omega
  rw [Board._is_valid, pseudoLegalSpec, Bool.and_eq_true, beq_iff_eq]
  apply and_congr_right
  intro hvi
  dsimp only
  rw [iteBool, iteBool, iteBool, iteBool, iteBool, iteBool, iteBool, iteBool,
    Bool.or_false]
  simp only [Bool.or_eq_true, beq_iff_eq]
  have hD : (∃ m ∈ dirNbrs (19 * y + x), b.vertices m = 0)
      ↔ (b.vertices (tblN (19 * y + x)) = 0 ∨ b.vertices (tblE (19 * y + x)) = 0 ∨
         b.vertices (tblS (19 * y + x)) = 0 ∨ b.vertices (tblW (19 * y + x)) = 0) := by
    simp [dirNbrs]
  have hF : (∃ m ∈ dirNbrs (19 * y + x), b.vertices m = c.val ∧
        2 ≤ (libFinset b.vertices b.next_vertex m).card)
      ↔ ((b.vertices (tblN (19 * y + x)) = c.val ∧
            2 ≤ (libFinset b.vertices b.next_vertex (tblN (19 * y + x))).card) ∨
         (b.vertices (tblE (19 * y + x)) = c.val ∧
            2 ≤ (libFinset b.vertices b.next_vertex (tblE (19 * y + x))).card) ∨
         (b.vertices (tblS (19 * y + x)) = c.val ∧
            2 ≤ (libFinset b.vertices b.next_vertex (tblS (19 * y + x))).card) ∨
         (b.vertices (tblW (19 * y + x)) = c.val ∧
            2 ≤ (libFinset b.vertices b.next_vertex (tblW (19 * y + x))).card)) := by
    simp [dirNbrs]
  have hO : (∃ m ∈ dirNbrs (19 * y + x), b.vertices m = c.opposite.val ∧
        (libFinset b.vertices b.next_vertex m).card = 1)
      ↔ ((b.vertices (tblN (19 * y + x)) = c.opposite.val ∧
            (libFinset b.vertices b.next_vertex (tblN (19 * y + x))).card = 1) ∨
         (b.vertices (tblE (19 * y + x)) = c.opposite.val ∧
            (libFinset b.vertices b.next_vertex (tblE (19 * y + x))).card = 1) ∨
         (b.vertices (tblS (19 * y + x)) = c.opposite.val ∧
            (libFinset b.vertices b.next_vertex (tblS (19 * y + x))).card = 1) ∨
         (b.vertices (tblW (19 * y + x)) = c.opposite.val ∧
            (libFinset b.vertices b.next_vertex (tblW (19 * y + x))).card = 1)) := by
    simp [dirNbrs]
  rw [hD, hF, hO]
  by_cases hdir : b.vertices (tblN (19 * y + x)) = 0 ∨ b.vertices (tblE (19 * y + x)) = 0 ∨
      b.vertices (tblS (19 * y + x)) = 0 ∨ b.vertices (tblW (19 * y + x)) = 0
  · constructor
    · intro _
      exact Or.inl hdir
    · intro _
      rcases hdir with h | h | h | h
      · exact Or.inl h
      · exact Or.inr (Or.inl h)
      · exact Or.inr (Or.inr (Or.inl h))
      · exact Or.inr (Or.inr (Or.inr (Or.inl h)))
  · rw [not_or, not_or, not_or] at hdir
    obtain ⟨hn0, he0, hs0, hw0⟩ := hdir
    have htN : b.vertices (tblN (19 * y + x)) ≠ 255 → tblN (19 * y + x) = 19 * y + x + 19 := by
      intro h255
      rcases tblN_cases (19 * y + x) with ⟨h1, _⟩ | h1
      · exact h1
      · rw [h1, sentinel_361 hw.2.1] at h255
        exact absurd rfl h255
    have htE : b.vertices (tblE (19 * y + x)) ≠ 255 → tblE (19 * y + x) = 19 * y + x + 1 := by
      intro h255
      rcases tblE_cases (19 * y + x) with ⟨h1, _⟩ | h1
      · exact h1
      · rw [h1, sentinel_361 hw.2.1] at h255
        exact absurd rfl h255
    have htS : b.vertices (tblS (19 * y + x)) ≠ 255 → tblS (19 * y + x) = 19 * y + x - 19 := by
      intro h255
      rcases tblS_cases (19 * y + x) with ⟨h1, _⟩ | h1
      · exact h1
      · rw [h1, sentinel_361 hw.2.1] at h255
        exact absurd rfl h255
    have htW : b.vertices (tblW (19 * y + x)) ≠ 255 → tblW (19 * y + x) = 19 * y + x - 1 := by
      intro h255
      rcases tblW_cases (19 * y + x) with ⟨h1, _⟩ | h1
      · exact h1
      · rw [h1, sentinel_361 hw.2.1] at h255
        exact absurd rfl h255
    have hsN := saveDir_iff b c hw hi hvi (Or.inl rfl) hn0 htN
    have hsE := saveDir_iff b c hw hi hvi (Or.inr (Or.inl rfl)) he0 htE
    have hsS := saveDir_iff b c hw hi hvi (Or.inr (Or.inr (Or.inl rfl))) hs0 htS
    have hsW := saveDir_iff b c hw hi hvi (Or.inr (Or.inr (Or.inr rfl))) hw0 htW
    rw [hsN, hsE, hsS, hsW]
    constructor
    · rintro (h | h | h | h | (h | h) | (h | h) | (h | h) | (h | h))
      · exact Or.inl (Or.inl h)
      · exact Or.inl (Or.inr (Or.inl h))
      · exact Or.inl (Or.inr (Or.inr (Or.inl h)))
      · exact Or.inl (Or.inr (Or.inr (Or.inr h)))
      · exact Or.inr (Or.inl (Or.inl h))
      · exact Or.inr (Or.inr (Or.inl h))
      · exact Or.inr (Or.inl (Or.inr (Or.inl h)))
      · exact Or.inr (Or.inr (Or.inr (Or.inl h)))
      · exact Or.inr (Or.inl (Or.inr (Or.inr (Or.inl h))))
      · exact Or.inr (Or.inr (Or.inr (Or.inr (Or.inl h))))
      · exact Or.inr (Or.inl (Or.inr (Or.inr (Or.inr h))))
      · exact Or.inr (Or.inr (Or.inr (Or.inr (Or.inr h))))
    · rintro ((h | h | h | h) | (h | h | h | h) | (h | h | h | h))
      · exact Or.inl h
      · exact Or.inr (Or.inl h)
      · exact Or.inr (Or.inr (Or.inl h))
      · exact Or.inr (Or.inr (Or.inr (Or.inl h)))
      · exact Or.inr (Or.inr (Or.inr (Or.inr (Or.inl (Or.inl h)))))
      · exact Or.inr (Or.inr (Or.inr (Or.inr (Or.inr (Or.inl (Or.inl h))))))
      · exact Or.inr (Or.inr (Or.inr (Or.inr (Or.inr (Or.inr (Or.inl (Or.inl h)))))))
      · exact Or.inr (Or.inr (Or.inr (Or.inr (Or.inr (Or.inr (Or.inr (Or.inl h)))))))
      · exact Or.inr (Or.inr (Or.inr (Or.inr (Or.inl (Or.inr h)))))
      · exact Or.inr (Or.inr (Or.inr (Or.inr (Or.inr (Or.inl (Or.inr h))))))
      · exact Or.inr (Or.inr (Or.inr (Or.inr (Or.inr (Or.inr (Or.inl (Or.inr h)))))))
      · exact Or.inr (Or.inr (Or.inr (Or.inr (Or.inr (Or.inr (Or.inr (Or.inr h)))))))

/-- Witness for C1 at a concrete well-formed board. -/
theorem claimC1_witness :
    wfWitnessBoard._is_valid Color.black (19 * 3 + 4) = true ↔
      pseudoLegalSpec wfWitnessBoard Color.black (19 * 3 + 4) :=
  claimC1 wfWitnessBoard Color.black 4 3
    (by set_option maxRecDepth 100000 in decide) (by norm_num) (by norm_num)

/-!
### The tentative superko hash
-/

theorem foldr_xor_toFinset (g : Nat → Nat) : ∀ (l : List Nat), l.Nodup →
    (Finset.fold (· ^^^ ·) 0 g l.toFinset : Nat) = (l.map g).foldr (· ^^^ ·) 0 := by
  intro l
  induction l with
  | nil => intro _; rfl
  | cons a l ih =>
    intro hnd
    have hna : a ∉ l := (List.nodup_cons.mp hnd).1
    rw [List.toFinset_cons, List.map_cons, List.foldr_cons,
      Finset.fold_insert (by rw [List.mem_toFinset]; exact hna),
      ih (List.nodup_cons.mp hnd).2]

theorem captureIfAux_eq (f : Nat → Nat) (m colorV : Nat) : ∀ fuel cur adj,
    captureIfAux f m colorV fuel cur adj
      = ((cycleListAux f m fuel cur).map (fun s => zobristTable colorV s)).foldl (· ^^^ ·) adj := by
  intro fuel
  induction fuel with
  | zero => intro cur adj; rfl
  | succ fuel ih =>
    intro cur adj
    rw [captureIfAux, cycleListAux]
    by_cases h : f cur = m
    · rw [if_pos h, if_pos h]
      rfl
    · rw [if_neg h, if_neg h, List.map_cons, List.foldl_cons, ih]

theorem xor_foldl_eq_foldr : ∀ (l : List Nat) (a : Nat),
    l.foldl (· ^^^ ·) a = a ^^^ l.foldr (· ^^^ ·) 0 := by
  intro l
  induction l with
  | nil => intro a; exact (Nat.xor_zero a).symm
  | cons x l ih =>
    intro a
    rw [List.foldl_cons, List.foldr_cons, ih, Nat.xor_assoc]

/-- On a well-formed board, the `capture_if` walk computes the XOR of the
Zobrist constants over the member set of the group. -/
theorem capture_if_eq_groupXor {v f : Nat → Nat} (h : ArrInv v f) {m : Nat}
    (hm : m < 361) (ho : v m ≠ 0) (colorV : Nat) :
    capture_if f colorV m = groupXor f colorV m := by
  rw [capture_if, captureIfAux_eq]
  have hcl : cycleListAux f m 361 m = cycleList f m := rfl
  rw [hcl, xor_foldl_eq_foldr, Nat.zero_xor, groupXor]
  have hnd := cycleList_nodup h hm ho
  exact (foldr_xor_toFinset (fun s => zobristTable colorV s) (cycleList f m) hnd).symm

/-- The opponent-capture condition of `_is_ko` for one direction agrees with
the spec's captured-group condition, and the XOR applied agrees with the
group XOR. -/
theorem koStep_eq (b : Board) (c : Color) {i m t : Nat} (hw : b.WF)
    (hi : i < 361) (hvi : b.vertices i = 0) (hnbr : isNbrOf i m)
    (hmt : b.vertices m ≠ 255 → m = t) (z : Nat) :
    (if (b.vertices m == c.opposite.val &&
          !hasTwoLiberties b.vertices b.next_vertex t) = true then
       z ^^^ capture_if b.next_vertex c.opposite.val t else z)
      = (if capturedDir b c m then z ^^^ groupXor b.next_vertex c.opposite.val m else z) := by
  by_cases hopp : b.vertices m = c.opposite.val
  · have hocc : b.vertices m ≠ 0 := by
      rw [hopp]; cases c <;> simp [Color.opposite, Color.val]
    have h255 : b.vertices m ≠ 255 := by
      rw [hopp]; cases c <;> simp [Color.opposite, Color.val]
    have hmt2 := hmt h255
    subst hmt2
    have hm361 : m < 361 := nbr_on_board hw.2.1 hnbr h255
    have h2lib := hasTwo_iff_card hw hm361 hocc
    have hcenter : 1 ≤ (libFinset b.vertices b.next_vertex m).card :=
      Finset.card_pos.mpr ⟨i, center_mem_libFinset hw hi hvi hnbr h255⟩
    have hbeq : (b.vertices m == c.opposite.val) = true := by simp [hopp]
    rcases Bool.eq_false_or_eq_true (hasTwoLiberties b.vertices b.next_vertex m) with hht | hht
    · have hcard : (libFinset b.vertices b.next_vertex m).card ≠ 1 := by
        have := h2lib.mp hht
        omega
      have hcond : (b.vertices m == c.opposite.val &&
          !hasTwoLiberties b.vertices b.next_vertex m) = false := by
        rw [hbeq, hht]
        rfl
      rw [if_neg (by
          intro hcl
          rw [hcond] at hcl
          exact absurd hcl (by norm_num)),
        if_neg (by
          rintro ⟨_, hc1⟩
          exact hcard hc1)]
    · have hcard : (libFinset b.vertices b.next_vertex m).card = 1 := by
        have hn2 : ¬ 2 ≤ (libFinset b.vertices b.next_vertex m).card := by
          rw [← h2lib, hht]
          norm_num
        omega
      have hcond : (b.vertices m == c.opposite.val &&
          !hasTwoLiberties b.vertices b.next_vertex m) = true := by
        rw [hbeq, hht]
        rfl
      rw [if_pos hcond, if_pos ⟨hopp, hcard⟩, capture_if_eq_groupXor hw hm361 hocc]
  · have hbeq : (b.vertices m == c.opposite.val) = false := by simp [hopp]
    rw [if_neg (by rw [hbeq]; norm_num), if_neg (by
      rintro ⟨hc1, _⟩
      exact hopp hc1)]

/-- On a well-formed board with an empty target, `_is_ko` tests exactly the
per-direction tentative hash against the history. -/
theorem isKo_eq_tentative (b : Board) (c : Color) {i : Nat} (hw : b.WF)
    (hi : i < 361) (hvi : b.vertices i = 0) :
    b._is_ko c i = b.zobrist_history.contains (tentativeDir b c i) := by
  rw [Board._is_ko, tentativeDir, dirNbrs]
  rw [List.foldl_cons, List.foldl_cons, List.foldl_cons, List.foldl_cons, List.foldl_nil]
  have htN : b.vertices (tblN i) ≠ 255 → tblN i = i + 19 := by
    intro h255
    rcases tblN_cases i with ⟨h1, _⟩ | h1
    · exact h1
    · rw [h1, sentinel_361 hw.2.1] at h255
      exact absurd rfl h255
  have htE : b.vertices (tblE i) ≠ 255 → tblE i = i + 1 := by
    intro h255
    rcases tblE_cases i with ⟨h1, _⟩ | h1
    · exact h1
    · rw [h1, sentinel_361 hw.2.1] at h255
      exact absurd rfl h255
  have htS : b.vertices (tblS i) ≠ 255 → tblS i = i - 19 := by
    intro h255
    rcases tblS_cases i with ⟨h1, _⟩ | h1
    · exact h1
    · rw [h1, sentinel_361 hw.2.1] at h255
      exact absurd rfl h255
  have htW : b.vertices (tblW i) ≠ 255 → tblW i = i - 1 := by
    intro h255
    rcases tblW_cases i with ⟨h1, _⟩ | h1
    · exact h1
    · rw [h1, sentinel_361 hw.2.1] at h255
      exact absurd rfl h255
  rw [koStep_eq b c hw hi hvi (Or.inl rfl) htN,
    koStep_eq b c hw hi hvi (Or.inr (Or.inl rfl)) htE,
    koStep_eq b c hw hi hvi (Or.inr (Or.inr (Or.inl rfl))) htS,
    koStep_eq b c hw hi hvi (Or.inr (Or.inr (Or.inr rfl))) htW]

/-- C2 (amended): on a well-formed board with an empty on-board target,
`is_valid` returns true iff `_is_valid` does and the tentative post-move
hash — computed by XORing in the mover's constant and then, once for each
cardinal direction whose opponent neighbour group has exactly one liberty,
XORing out that group's member constants — is not already present in
`zobrist_history`.  (A group adjacent from two directions is XORed twice,
cancelling; the original claim's once-per-group computation differs.) -/
theorem claimC2 (b : Board) (c : Color) (x y : Nat) (hw : b.WF)
    (hx : x < 19) (hy : y < 19) (hvi : b.vertices (19 * y + x) = 0) :
    b.is_valid c x y = true ↔
      (b._is_valid c (19 * y + x) = true ∧
       b.zobrist_history.contains (tentativeDir b c (19 * y + x)) = false) := by
  have hi : 19 * y + x < 361 := by omega
  rw [Board.is_valid, Bool.and_eq_true, isKo_eq_tentative b c hw hi hvi]
  apply and_congr_right
  intro _
  cases b.zobrist_history.contains (tentativeDir b c (19 * y + x)) <;> norm_num

/-- Witness for the amended C2 at a concrete well-formed board. -/
theorem claimC2_witness :
    wfWitnessBoard.is_valid Color.white 5 5 = true ↔
      (wfWitnessBoard._is_valid Color.white (19 * 5 + 5) = true ∧
       wfWitnessBoard.zobrist_history.contains
         (tentativeDir wfWitnessBoard Color.white (19 * 5 + 5)) = false) :=
  claimC2 wfWitnessBoard Color.white 5 5
    (by set_option maxRecDepth 100000 in decide) (by norm_num) (by norm_num)
    (by set_option maxRecDepth 100000 in decide)

/-- C2 counterexample: on this well-formed board the move black (1,1)
(index 20) is empty and pseudo-legal, and the claim's tentative hash —
XORing the captured white group out exactly once — is not in the history,
so the claim says `is_valid` returns true; but the code XORs the group out
once per adjacent direction (twice here), reproducing the hash that is in
the history, and `is_valid` returns false. -/
theorem claimC2_counterexample :
    c2Board.WF ∧
    c2Board._is_valid Color.black (19 * 1 + 1) = true ∧
    c2Board.zobrist_history.contains
      (tentativeGroups c2Board Color.black (19 * 1 + 1)) = false ∧
    c2Board.is_valid Color.black 1 1 = false := by
  refine ⟨?_, ?_, ?_, ?_⟩
  · set_option maxRecDepth 100000 in decide
  · set_option maxRecDepth 100000 in decide
  · set_option maxRecDepth 100000 in decide
  · set_option maxRecDepth 100000 in decide

/-!
### Invariant preservation through `place_no_capture`
-/

theorem swapNext_inj {v f : Nat → Nat}
    (hm : ∀ i, i < 361 → v i ≠ 0 → f i < 361 ∧ v (f i) = v i)
    (hinj : ∀ i, i < 361 → v i ≠ 0 → ∀ j, j < 361 → v j ≠ 0 → f i = f j → i = j)
    {a b2 : Nat} (ha : a < 361) (hb : b2 < 361) (hva : v a ≠ 0) (hvb : v b2 ≠ 0) :
    ∀ i, i < 361 → v i ≠ 0 → ∀ j, j < 361 → v j ≠ 0 →
      swapNext f a b2 i = swapNext f a b2 j → i = j := by
  have key : ∀ i, i < 361 → v i ≠ 0 → ∃ s, s < 361 ∧ v s ≠ 0 ∧
      swapNext f a b2 i = f s ∧
      ((i ≠ b2 ∧ i ≠ a ∧ s = i) ∨ (i = b2 ∧ s = a) ∨ (i ≠ b2 ∧ i = a ∧ s = b2)) := by
    intro i hi hoi
    by_cases h1 : i = b2
    · exact ⟨a, ha, hva, by simp only [swapNext]; rw [if_pos h1],
        Or.inr (Or.inl ⟨h1, rfl⟩)⟩
    · by_cases h2 : i = a
      · exact ⟨b2, hb, hvb, by simp only [swapNext]; rw [if_neg h1, if_pos h2],
          Or.inr (Or.inr ⟨h1, h2, rfl⟩)⟩
      · exact ⟨i, hi, hoi, by simp only [swapNext]; rw [if_neg h1, if_neg h2],
          Or.inl ⟨h1, h2, rfl⟩⟩
  intro i hi hoi j hj hoj heq
  obtain ⟨s, hs, hos, hes, hcs⟩ := key i hi hoi
  obtain ⟨t, ht, hot, het, hct⟩ := key j hj hoj
  have hst : s = t := hinj s hs hos t ht hot (by rw [← hes, ← het, heq])
  rcases hcs with ⟨hn1, hn2, rfl⟩ | ⟨he1, rfl⟩ | ⟨hn1, he2, rfl⟩ <;>
    rcases hct with ⟨hm1, hm2, rfl⟩ | ⟨hf1, rfl⟩ | ⟨hm1, hf2, rfl⟩ <;> omega

theorem join_vertices_inv {v f : Nat → Nat} (hinv : ArrInv v f) {a b2 : Nat}
    (ha : a < 361) (hb : b2 < 361) (hva : v a ≠ 0) (hvb : v b2 ≠ 0)
    (hcol : v a = v b2) : ArrInv v (join_vertices f a b2) := by
  obtain ⟨hc, hs, hm, hinj⟩ := hinv
  rw [join_vertices]
  split
  · exact ⟨hc, hs, hm, hinj⟩
  · refine ⟨hc, hs, ?_, swapNext_inj hm hinj ha hb hva hvb⟩
    intro i hi hoi
    by_cases h1 : i = b2
    · have hsw : swapNext f a b2 i = f a := by simp only [swapNext]; rw [if_pos h1]
      rw [hsw, h1]
      exact ⟨(hm a ha hva).1, (hm a ha hva).2.trans hcol⟩
    · by_cases h2 : i = a
      · have hsw : swapNext f a b2 i = f b2 := by
          simp only [swapNext]; rw [if_neg h1, if_pos h2]
        rw [hsw, h2]
        exact ⟨(hm b2 hb hvb).1, (hm b2 hb hvb).2.trans hcol.symm⟩
      · have hsw : swapNext f a b2 i = f i := by
          simp only [swapNext]; rw [if_neg h1, if_neg h2]
        rw [hsw]
        exact hm i hi hoi

theorem place_base_inv {v f : Nat → Nat} (hinv : ArrInv v f) {index cv : Nat}
    (hi : index < 361) (he : v index = 0) (hcv : cv = 1 ∨ cv = 2) :
    ArrInv (upd v index cv) (upd f index index) := by
  obtain ⟨hc, hs, hm, hinj⟩ := hinv
  have hfne : ∀ j, j < 361 → v j ≠ 0 → f j ≠ index := by
    intro j hj hoj hfe
    have hcolj := (hm j hj hoj).2
    rw [hfe, he] at hcolj
    exact hoj hcolj.symm
  refine ⟨?_, ?_, ?_, ?_⟩
  · intro i hi2
    by_cases hii : i = index
    · subst hii; rw [upd_same]; tauto
    · rw [upd_other _ _ _ _ hii]; exact hc i hi2
  · intro i hi2
    rw [upd_other _ _ _ _ (by omega : 361 + i ≠ index)]
    exact hs i hi2
  · intro i hi2 hoi
    by_cases hii : i = index
    · subst hii
      rw [upd_same]
      exact ⟨hi2, rfl⟩
    · rw [upd_other f _ _ _ hii]
      have hoi' : v i ≠ 0 := by rwa [upd_other v _ _ _ hii] at hoi
      refine ⟨(hm i hi2 hoi').1, ?_⟩
      rw [upd_other v _ _ _ (hfne i hi2 hoi'), upd_other v _ _ _ hii]
      exact (hm i hi2 hoi').2
  · intro i hi2 hoi j hj2 hoj heq
    by_cases hii : i = index <;> by_cases hjj : j = index
    · omega
    · subst hii
      rw [upd_same, upd_other f _ _ _ hjj] at heq
      have hoj' : v j ≠ 0 := by rwa [upd_other v _ _ _ hjj] at hoj
      exact absurd heq.symm (hfne j hj2 hoj')
    · subst hjj
      rw [upd_same, upd_other f _ _ _ hii] at heq
      have hoi' : v i ≠ 0 := by rwa [upd_other v _ _ _ hii] at hoi
      exact absurd heq (hfne i hi2 hoi')
    · rw [upd_other f _ _ _ hii, upd_other f _ _ _ hjj] at heq
      have hoi' : v i ≠ 0 := by rwa [upd_other v _ _ _ hii] at hoi
      have hoj' : v j ≠ 0 := by rwa [upd_other v _ _ _ hjj] at hoj
      exact hinj i hi2 hoi' j hj2 hoj' heq

theorem place_join_step {v1 f : Nat → Nat} (hinv : ArrInv v1 f) {index t nb cv : Nat}
    (hidx : index < 361) (hvidx : v1 index = cv) (hcv : cv = 1 ∨ cv = 2)
    (ht : t = nb ∧ nb < 361 ∨ t = 361) :
    ArrInv v1 (if v1 t = cv then join_vertices f index nb else f) := by
  split
  · rename_i hcond
    rcases ht with ⟨rfl, h2⟩ | rfl
    · exact join_vertices_inv hinv hidx h2 (by omega) (by omega)
        (hvidx.trans hcond.symm)
    · exfalso
      have h255 := sentinel_361 hinv.2.1
      omega
  · exact hinv

theorem place_no_capture_inv {v f : Nat → Nat} (hinv : ArrInv v f) (c : Color)
    {index : Nat} (hi : index < 361) (he : v index = 0) :
    (place_no_capture v f c index).1 = upd v index c.val ∧
    ArrInv (upd v index c.val) (place_no_capture v f c index).2 := by
  have hcv : c.val = 1 ∨ c.val = 2 := by cases c <;> simp [Color.val]
  have h0 : ArrInv (upd v index c.val) (upd f index index) :=
    place_base_inv hinv hi he hcv
  have hval : upd v index c.val index = c.val := upd_same v index c.val
  refine ⟨rfl, ?_⟩
  simp only [place_no_capture]
  refine place_join_step
    (place_join_step
      (place_join_step
        (place_join_step h0 hi hval hcv ?_) hi hval hcv ?_) hi hval hcv ?_)
    hi hval hcv ?_
  · rcases tblN_cases index with ⟨h1, h2⟩ | h1
    · exact Or.inl ⟨h1, h2⟩
    · exact Or.inr h1
  · rcases tblE_cases index with ⟨h1, h2, h3⟩ | h1
    · exact Or.inl ⟨h1, by omega⟩
    · exact Or.inr h1
  · rcases tblS_cases index with ⟨h1, h2, h3⟩ | h1
    · exact Or.inl ⟨h1, by omega⟩
    · exact Or.inr h1
  · rcases tblW_cases index with ⟨h1, h2, h3⟩ | h1
    · exact Or.inl ⟨h1, by omega⟩
    · exact Or.inr h1

/-!
### Invariant preservation through `capture`
-/

theorem captureAux_eq (f : Nat → Nat) (index : Nat) : ∀ fuel cur p,
    captureAux f index fuel cur p
      = (cycleListAux f index fuel cur).foldl captureStep p := by
  intro fuel
  induction fuel with
  | zero => intro cur p; rfl
  | succ n ih =>
    intro cur p
    rw [captureAux, cycleListAux, List.foldl_cons]
    by_cases h : f cur = index
    · rw [if_pos h, if_pos h]
      rfl
    · rw [if_neg h, if_neg h]
      exact ih (f cur) (captureStep p cur)

theorem foldl_captureStep : ∀ (L : List Nat), L.Nodup → ∀ (v : Nat → Nat) (hz : Nat),
    (∀ j, (L.foldl captureStep (v, hz)).1 j = if j ∈ L then 0 else v j) ∧
    (L.foldl captureStep (v, hz)).2
      = hz ^^^ (L.map (fun s => zobristTable (v s) s)).foldr (· ^^^ ·) 0 := by
  intro L
  induction L with
  | nil =>
    intro _ v hz
    exact ⟨fun j => by simp, by simp⟩
  | cons m L ih =>
    intro hnd v hz
    have hmL : m ∉ L := (List.nodup_cons.mp hnd).1
    have hnd' : L.Nodup := (List.nodup_cons.mp hnd).2
    rw [List.foldl_cons,
      show captureStep (v, hz) m = (upd v m 0, hz ^^^ zobristTable (v m) m) from rfl]
    obtain ⟨ih1, ih2⟩ := ih hnd' (upd v m 0) (hz ^^^ zobristTable (v m) m)
    constructor
    · intro j
      rw [ih1 j]
      by_cases hj1 : j ∈ L
      · rw [if_pos hj1, if_pos (List.mem_cons_of_mem m hj1)]
      · rw [if_neg hj1]
        by_cases hj2 : j = m
        · rw [if_pos (by rw [hj2]; exact List.mem_cons_self m L), hj2, upd_same]
        · have hnotin : j ∉ m :: L := by
            intro hc
            rcases List.mem_cons.mp hc with h' | h'
            · exact hj2 h'
            · exact hj1 h'
          rw [upd_other v _ _ _ hj2, if_neg hnotin]
    · rw [ih2]
      have hmap : L.map (fun s => zobristTable (upd v m 0 s) s)
          = L.map (fun s => zobristTable (v s) s) := by
        apply List.map_congr_left
        intro s hsL
        rw [upd_other v m 0 s (fun hsm => hmL (hsm ▸ hsL))]
      rw [hmap, List.map_cons, List.foldr_cons, Nat.xor_assoc]

theorem cycleList_pre {v f : Nat → Nat} (h : ArrInv v f) {g : Nat} (hg : g < 361)
    (ho : v g ≠ 0) : ∀ m ∈ cycleList f g, ∃ m2 ∈ cycleList f g, f m2 = m := by
  obtain ⟨k0, hk0, _, hret, _, hcl⟩ := cycleList_canonical h hg ho
  intro m hm
  rw [hcl, List.mem_map] at hm
  obtain ⟨u, hu, hum⟩ := hm
  rw [List.mem_range] at hu
  by_cases hu0 : u = 0
  · refine ⟨f^[k0 - 1] g, ?_, ?_⟩
    · rw [hcl, List.mem_map]
      exact ⟨k0 - 1, List.mem_range.mpr (by omega), rfl⟩
    · rw [← Function.iterate_succ_apply' f (k0 - 1) g,
        show (k0 - 1).succ = k0 from by omega, hret, ← hum, hu0]
      rfl
  · refine ⟨f^[u - 1] g, ?_, ?_⟩
    · rw [hcl, List.mem_map]
      exact ⟨u - 1, List.mem_range.mpr (by omega), rfl⟩
    · rw [← Function.iterate_succ_apply' f (u - 1) g,
        show (u - 1).succ = u from by omega, hum]

theorem captureRun_inv {v f : Nat → Nat} (h : ArrInv v f) {g : Nat} (hg : g < 361)
    (ho : v g ≠ 0) (hz : Nat) :
    (∀ j, (captureRun f g v hz).1 j = if j ∈ cycleList f g then 0 else v j) ∧
    (captureRun f g v hz).2
      = hz ^^^ ((cycleList f g).map (fun s => zobristTable (v s) s)).foldr (· ^^^ ·) 0 ∧
    ArrInv (captureRun f g v hz).1 f := by
  have hnd := cycleList_nodup h hg ho
  have hL : ∀ s ∈ cycleList f g, s < 361 ∧ v s = v g :=
    cycleList_mem_of_canonical h hg ho
  have heq : captureRun f g v hz = (cycleList f g).foldl captureStep (v, hz) :=
    captureAux_eq f g 361 g (v, hz)
  obtain ⟨h1, h2⟩ := foldl_captureStep (cycleList f g) hnd v hz
  rw [heq]
  obtain ⟨hc, hsent, hmap, hinj⟩ := h
  refine ⟨h1, h2, ?_, ?_, ?_, ?_⟩
  · intro i hi
    rw [h1 i]
    split
    · exact Or.inl rfl
    · exact hc i hi
  · intro i hi
    rw [h1 (361 + i), if_neg (fun hmem => by have := (hL _ hmem).1; omega)]
    exact hsent i hi
  · intro i hi hoi
    rw [h1 i] at hoi
    by_cases hiL : i ∈ cycleList f g
    · rw [if_pos hiL] at hoi
      exact absurd rfl hoi
    · rw [if_neg hiL] at hoi
      have hold := hmap i hi hoi
      refine ⟨hold.1, ?_⟩
      have hfiL : f i ∉ cycleList f g := by
        intro hfi
        obtain ⟨m2, hm2, hfm2⟩ :=
          cycleList_pre ⟨hc, hsent, hmap, hinj⟩ hg ho (f i) hfi
        have hm2p := (hL m2 hm2).1
        have hm2o : v m2 ≠ 0 := by rw [(hL m2 hm2).2]; exact ho
        have hmi : m2 = i := hinj m2 hm2p hm2o i hi hoi hfm2
        exact hiL (hmi ▸ hm2)
      rw [h1 (f i), if_neg hfiL, h1 i, if_neg hiL]
      exact hold.2
  · intro i hi hoi j hj hoj heq2
    rw [h1 i] at hoi
    rw [h1 j] at hoj
    by_cases hiL : i ∈ cycleList f g
    · rw [if_pos hiL] at hoi
      exact absurd rfl hoi
    · by_cases hjL : j ∈ cycleList f g
      · rw [if_pos hjL] at hoj
        exact absurd rfl hoj
      · rw [if_neg hiL] at hoi
        rw [if_neg hjL] at hoj
        exact hinj i hi hoi j hj hoj heq2

/-!
### The hash invariant
-/

theorem xorCancelLeft (a b : Nat) : a ^^^ (a ^^^ b) = b := by
  rw [← Nat.xor_assoc, Nat.xor_self, Nat.zero_xor]

theorem xorShuffle (a b x : Nat) : (b ^^^ x) ^^^ (b ^^^ a) = a ^^^ x := by
  rw [Nat.xor_comm b x, Nat.xor_assoc, ← Nat.xor_assoc b b a, Nat.xor_self,
    Nat.zero_xor, Nat.xor_comm x a]

theorem occupiedXor_congr {v w : Nat → Nat} (h : ∀ i, i < 361 → v i = w i) :
    occupiedXor v = occupiedXor w := by
  rw [occupiedXor, occupiedXor]
  congr 1
  apply List.map_congr_left
  intro i hi
  rw [List.mem_range] at hi
  rw [zContrib, zContrib, h i hi]

theorem foldr_xor_map_update : ∀ (l : List Nat), l.Nodup →
    ∀ (g g2 : Nat → Nat) (m : Nat), m ∈ l → (∀ j ∈ l, j ≠ m → g j = g2 j) →
      (l.map g).foldr (· ^^^ ·) 0
        = ((l.map g2).foldr (· ^^^ ·) 0) ^^^ (g2 m ^^^ g m) := by
  intro l
  induction l with
  | nil => intro _ g g2 m hm; exact absurd hm (List.not_mem_nil m)
  | cons a l ih =>
    intro hnd g g2 m hm hagree
    have hmL : a ∉ l := (List.nodup_cons.mp hnd).1
    have hnd' := (List.nodup_cons.mp hnd).2
    rw [List.map_cons, List.map_cons, List.foldr_cons, List.foldr_cons]
    rcases List.mem_cons.mp hm with rfl | hm2
    · have hmapeq : l.map g = l.map g2 := by
        apply List.map_congr_left
        intro j hj
        exact hagree j (List.mem_cons_of_mem _ hj) (fun hjm => hmL (hjm ▸ hj))
      rw [hmapeq]
      exact (xorShuffle _ _ _).symm
    · have ham : a ≠ m := fun hc => hmL (hc ▸ hm2)
      rw [ih hnd' g g2 m hm2
          (fun j hj hjm => hagree j (List.mem_cons_of_mem _ hj) hjm),
        hagree a (List.mem_cons_self a l) ham, Nat.xor_assoc]

theorem occupiedXor_upd (v : Nat → Nat) {m : Nat} (x : Nat) (hm : m < 361) :
    occupiedXor (upd v m x)
      = occupiedXor v ^^^ (zContrib v m ^^^ zContrib (upd v m x) m) := by
  rw [occupiedXor, occupiedXor]
  exact foldr_xor_map_update (List.range 361) (List.nodup_range 361)
    (zContrib (upd v m x)) (zContrib v) m (List.mem_range.mpr hm)
    (fun j _ hjm => by rw [zContrib, zContrib, upd_other v _ _ _ hjm])

theorem occupiedXor_zero_on : ∀ (L : List Nat), L.Nodup → (∀ s ∈ L, s < 361) →
    ∀ v : Nat → Nat,
      occupiedXor (fun j => if j ∈ L then 0 else v j)
        = occupiedXor v ^^^ (L.map (zContrib v)).foldr (· ^^^ ·) 0 := by
  intro L
  induction L with
  | nil =>
    intro _ _ v
    have he : (fun j => if j ∈ ([] : List Nat) then 0 else v j) = fun j => v j := by
      funext j
      simp
    rw [he]
    exact (Nat.xor_zero _).symm
  | cons m L ih =>
    intro hnd hlt v
    have hmL : m ∉ L := (List.nodup_cons.mp hnd).1
    have hnd' := (List.nodup_cons.mp hnd).2
    have hstep : (fun j => if j ∈ m :: L then 0 else v j)
        = fun j => if j ∈ L then 0 else upd v m 0 j := by
      funext j
      by_cases hj1 : j ∈ L
      · rw [if_pos hj1, if_pos (List.mem_cons_of_mem m hj1)]
      · rw [if_neg hj1]
        by_cases hj2 : j = m
        · rw [if_pos (by rw [hj2]; exact List.mem_cons_self m L), hj2, upd_same]
        · have hnotin : j ∉ m :: L := by
            intro hc
            rcases List.mem_cons.mp hc with h' | h'
            · exact hj2 h'
            · exact hj1 h'
          rw [if_neg hnotin, upd_other v _ _ _ hj2]
    rw [hstep, ih hnd' (fun s hs => hlt s (List.mem_cons_of_mem m hs)) (upd v m 0)]
    have hmapeq : L.map (zContrib (upd v m 0)) = L.map (zContrib v) := by
      apply List.map_congr_left
      intro s hs
      have hsm : s ≠ m := fun hc => hmL (hc ▸ hs)
      rw [zContrib, zContrib, upd_other v _ _ _ hsm]
    have hz : zContrib (upd v m 0) m = 0 := by
      rw [zContrib, upd_same]
      norm_num
    rw [hmapeq, occupiedXor_upd v 0 (hlt m (List.mem_cons_self m L)), hz,
      Nat.xor_zero, List.map_cons, List.foldr_cons, Nat.xor_assoc]

theorem capturePhaseStep_inv {f : Nat → Nat} {p : (Nat → Nat) × Nat}
    (hinv : ArrInv p.1 f) (hh : p.2 = occupiedXor p.1)
    {t nb opp : Nat} (ht : t = nb ∧ nb < 361 ∨ t = 361) (hopp : opp = 1 ∨ opp = 2) :
    ArrInv (capturePhaseStep f opp t nb p).1 f ∧
    (capturePhaseStep f opp t nb p).2
      = occupiedXor (capturePhaseStep f opp t nb p).1 := by
  simp only [capturePhaseStep]
  by_cases hcond : p.1 t = opp ∧ has_one_liberty p.1 f nb = false
  · rw [if_pos hcond]
    obtain ⟨hc1, _⟩ := hcond
    rcases ht with ⟨hte, hnb⟩ | hte
    · rw [hte] at hc1
      have honb : p.1 nb ≠ 0 := by omega
      obtain ⟨h1, h2, h3⟩ := captureRun_inv hinv hnb honb p.2
      refine ⟨h3, ?_⟩
      have hnd := cycleList_nodup hinv hnb honb
      have hL := cycleList_mem_of_canonical hinv hnb honb
      have hR : occupiedXor (captureRun f nb p.1 p.2).1
          = occupiedXor p.1
            ^^^ ((cycleList f nb).map (zContrib p.1)).foldr (· ^^^ ·) 0 := by
        rw [show (captureRun f nb p.1 p.2).1
            = (fun j => if j ∈ cycleList f nb then 0 else p.1 j) from funext h1]
        exact occupiedXor_zero_on (cycleList f nb) hnd (fun s hs => (hL s hs).1) p.1
      have hXY : (cycleList f nb).map (fun s => zobristTable (p.1 s) s)
          = (cycleList f nb).map (zContrib p.1) := by
        apply List.map_congr_left
        intro s hs
        have hcs : p.1 s = opp := (hL s hs).2.trans hc1
        rw [zContrib, hcs]
        rcases hopp with rfl | rfl <;> norm_num
      rw [h2, hR, hh, hXY]
    · exfalso
      rw [hte] at hc1
      have h255 := sentinel_361 hinv.2.1
      omega
  · rw [if_neg hcond]
    exact ⟨hinv, hh⟩

theorem place_inv {b : Board} (hw : b.WF)
    (hh : b.zobrist_hash = occupiedXor b.vertices) (c : Color) {x y : Nat}
    (hx : x < 19) (hy : y < 19) (he : b.vertices (19 * y + x) = 0) :
    (b.place c x y).WF ∧
    (b.place c x y).zobrist_hash = occupiedXor (b.place c x y).vertices := by
  have hi : 19 * y + x < 361 := by omega
  obtain ⟨hpv, hpinv⟩ := place_no_capture_inv hw c hi he
  have hopp : c.opposite.val = 1 ∨ c.opposite.val = 2 := by
    cases c <;> simp [Color.opposite, Color.val]
  have hcv : c.val = 1 ∨ c.val = 2 := by cases c <;> simp [Color.val]
  have h0inv : ArrInv (place_no_capture b.vertices b.next_vertex c (19 * y + x)).1
      (place_no_capture b.vertices b.next_vertex c (19 * y + x)).2 := by
    rw [hpv]
    exact hpinv
  have hh0 : b.zobrist_hash ^^^ zobristTable c.val (19 * y + x)
      = occupiedXor (place_no_capture b.vertices b.next_vertex c (19 * y + x)).1 := by
    rw [hpv, occupiedXor_upd b.vertices c.val hi, hh]
    have hz1 : zContrib b.vertices (19 * y + x) = 0 := by
      rw [zContrib, he]
      norm_num
    have hz2 : zContrib (upd b.vertices (19 * y + x) c.val) (19 * y + x)
        = zobristTable c.val (19 * y + x) := by
      rw [zContrib, upd_same]
      rcases hcv with h | h <;> rw [h] <;> norm_num
    rw [hz1, hz2, Nat.zero_xor]
  have htN : tblN (19 * y + x) = (19 * y + x) + 19 ∧ (19 * y + x) + 19 < 361 ∨
      tblN (19 * y + x) = 361 := by
    rcases tblN_cases (19 * y + x) with ⟨h1, h2⟩ | h1
    exacts [Or.inl ⟨h1, h2⟩, Or.inr h1]
  have htE : tblE (19 * y + x) = (19 * y + x) + 1 ∧ (19 * y + x) + 1 < 361 ∨
      tblE (19 * y + x) = 361 := by
    rcases tblE_cases (19 * y + x) with ⟨h1, h2, h3⟩ | h1
    exacts [Or.inl ⟨h1, by omega⟩, Or.inr h1]
  have htS : tblS (19 * y + x) = (19 * y + x) - 19 ∧ (19 * y + x) - 19 < 361 ∨
      tblS (19 * y + x) = 361 := by
    rcases tblS_cases (19 * y + x) with ⟨h1, h2, h3⟩ | h1
    exacts [Or.inl ⟨h1, by omega⟩, Or.inr h1]
  have htW : tblW (19 * y + x) = (19 * y + x) - 1 ∧ (19 * y + x) - 1 < 361 ∨
      tblW (19 * y + x) = 361 := by
    rcases tblW_cases (19 * y + x) with ⟨h1, h2, h3⟩ | h1
    exacts [Or.inl ⟨h1, by omega⟩, Or.inr h1]
  have h1 := capturePhaseStep_inv
    (p := ((place_no_capture b.vertices b.next_vertex c (19 * y + x)).1,
      b.zobrist_hash ^^^ zobristTable c.val (19 * y + x)))
    h0inv hh0 htN hopp
  have h2 := capturePhaseStep_inv h1.1 h1.2 htE hopp
  have h3 := capturePhaseStep_inv h2.1 h2.2 htS hopp
  have h4 := capturePhaseStep_inv h3.1 h3.2 htW hopp
  constructor
  · rw [Board.WF]
    simp only [Board.place]
    exact h4.1
  · simp only [Board.place]
    exact h4.2

theorem boardNew_WF : Board.new.WF := by
  set_option maxRecDepth 10000 in decide

theorem boardNew_hash : Board.new.zobrist_hash = occupiedXor Board.new.vertices := by
  have he : allEmpty Board.new.vertices := by
    set_option maxRecDepth 10000 in decide
  rw [occupiedXor_allEmpty he]
  rfl

theorem playMoves_inv : ∀ (ms : List (Color × Nat × Nat)) (b : Board),
    legalSeq b ms → b.WF → b.zobrist_hash = occupiedXor b.vertices →
    (playMoves b ms).WF ∧
      (playMoves b ms).zobrist_hash = occupiedXor (playMoves b ms).vertices := by
  intro ms
  induction ms with
  | nil => intro b _ hw hh; exact ⟨hw, hh⟩
  | cons m rest ih =>
    intro b hleg hw hh
    obtain ⟨hx, hy, he, hrest⟩ := hleg
    obtain ⟨hw2, hh2⟩ := place_inv hw hh m.1 hx hy he
    rw [playMoves]
    exact ih (b.place m.1 m.2.1 m.2.2) hrest hw2 hh2

theorem SmallSet.contains_push (s : SmallSet) (x : Nat) :
    (s.push x).contains x = true := by
  rw [SmallSet.push, SmallSet.contains]
  show ((x :: s.buf).take 8).contains x = true
  rw [show (8 : Nat) = 7 + 1 from rfl, List.take_succ_cons]
  simp [List.contains_cons]

theorem playMoves_contains : ∀ (ms : List (Color × Nat × Nat)) (b : Board),
    ms ≠ [] →
    (playMoves b ms).zobrist_history.contains (playMoves b ms).zobrist_hash
      = true := by
  intro ms
  induction ms with
  | nil => intro b h; exact absurd rfl h
  | cons m rest ih =>
    intro b _
    by_cases hr : rest = []
    · subst hr
      rw [playMoves, playMoves]
      simp only [Board.place]
      exact SmallSet.contains_push _ _
    · rw [playMoves]
      exact ih (b.place m.1 m.2.1 m.2.2) hr

/-- C3 (amended): along every sequence of moves played on empty in-range
target vertices from the fresh board, every occupied vertex `w` returns
to itself by following `next_vertex` in at most 361 steps, and every
vertex on the walk holds a stone of the same color as `w`.  (As stated —
for arbitrary in-range `place` calls — the claim is false: replaying onto
an occupied vertex corrupts the cycles, see the counterexample.) -/
theorem claimC3 (ms : List (Color × Nat × Nat)) (h : legalSeq Board.new ms)
    (w : Nat) (hw : w < 361) (ho : (playMoves Board.new ms).vertices w ≠ 0) :
    (∃ k, 0 < k ∧ k ≤ 361 ∧ (playMoves Board.new ms).next_vertex^[k] w = w) ∧
    ∀ j, (playMoves Board.new ms).vertices
        ((playMoves Board.new ms).next_vertex^[j] w)
      = (playMoves Board.new ms).vertices w := by
  have hinv := (playMoves_inv ms Board.new h boardNew_WF boardNew_hash).1
  exact ⟨hinv.exists_return hw ho, fun j => (hinv.iter_mem hw ho j).2⟩

/-- Witness for C3: two legally placed black stones; the cycle property at
the origin. -/
theorem claimC3_witness :
    (∃ k, 0 < k ∧ k ≤ 361 ∧
      (playMoves Board.new [(Color.black, 0, 0), (Color.black, 1, 0)]).next_vertex^[k] 0
        = 0) ∧
    ∀ j, (playMoves Board.new [(Color.black, 0, 0), (Color.black, 1, 0)]).vertices
        ((playMoves Board.new [(Color.black, 0, 0), (Color.black, 1, 0)]).next_vertex^[j] 0)
      = (playMoves Board.new [(Color.black, 0, 0), (Color.black, 1, 0)]).vertices 0 :=
  claimC3 [(Color.black, 0, 0), (Color.black, 1, 0)]
    (by set_option maxRecDepth 100000 in decide) 0 (by norm_num)
    (by set_option maxRecDepth 100000 in decide)

/-- C3 counterexample: the claim quantifies over every sequence of `place`
calls with in-range coordinates.  After black (0,0), black (1,0) and then
white replayed onto the occupied origin, vertex 1 still holds a black
stone but its `next_vertex` walk (1 → 0 → 0 → …) never returns to 1, so
the claimed cycle property fails for this in-range sequence. -/
theorem claimC3_counterexample :
    (∀ m ∈ [(Color.black, (0 : Nat), (0 : Nat)), (Color.black, 1, 0),
        (Color.white, 0, 0)], m.2.1 < 19 ∧ m.2.2 < 19) ∧
    c3CexBoard.vertices 1 ≠ 0 ∧
    ¬ ∃ k, 0 < k ∧ k ≤ 361 ∧ c3CexBoard.next_vertex^[k] 1 = 1 := by
  refine ⟨by decide, by set_option maxRecDepth 100000 in decide, ?_⟩
  rintro ⟨k, hk0, hk361, hret⟩
  have h1 : c3CexBoard.next_vertex 1 = 0 := by
    set_option maxRecDepth 100000 in decide
  have h0 : c3CexBoard.next_vertex 0 = 0 := by
    set_option maxRecDepth 100000 in decide
  have hfix : ∀ j, c3CexBoard.next_vertex^[j] 0 = 0 :=
    fun j => Function.iterate_fixed h0 j
  obtain ⟨k2, rfl⟩ : ∃ k2, k = k2 + 1 := ⟨k - 1, by omega⟩
  rw [Function.iterate_succ_apply, h1, hfix k2] at hret
  exact absurd hret (by norm_num)

/-- C4 (amended): after every nonempty sequence of moves played on empty
in-range target vertices from the fresh board, `zobrist_hash` equals the
XOR of the Zobrist constants of all occupied cells, and `zobrist_hash` is
a member of `zobrist_history`.  (As stated — for arbitrary in-range
`place` calls — the hash equation is false, see the counterexample.) -/
theorem claimC4 (ms : List (Color × Nat × Nat)) (h : legalSeq Board.new ms)
    (hne : ms ≠ []) :
    (playMoves Board.new ms).zobrist_hash
      = occupiedXor (playMoves Board.new ms).vertices ∧
    (playMoves Board.new ms).zobrist_history.contains
      ((playMoves Board.new ms).zobrist_hash) = true :=
  ⟨(playMoves_inv ms Board.new h boardNew_WF boardNew_hash).2,
    playMoves_contains ms Board.new hne⟩

/-- Witness for C4 at a single legally placed stone. -/
theorem claimC4_witness :
    (playMoves Board.new [(Color.black, 0, 0)]).zobrist_hash
      = occupiedXor (playMoves Board.new [(Color.black, 0, 0)]).vertices ∧
    (playMoves Board.new [(Color.black, 0, 0)]).zobrist_history.contains
      ((playMoves Board.new [(Color.black, 0, 0)]).zobrist_hash) = true :=
  claimC4 [(Color.black, 0, 0)]
    (by set_option maxRecDepth 100000 in decide) (List.cons_ne_nil _ _)

/-- C4 counterexample: the claim quantifies over every sequence of in-range
`place` calls.  After black (0,0) and then white replayed onto the occupied
origin, the hash has accumulated both stones' constants while the board
only shows the white stone, so `zobrist_hash` differs from the XOR over
occupied cells. -/
theorem claimC4_counterexample :
    (∀ m ∈ [(Color.black, (0 : Nat), (0 : Nat)), (Color.white, 0, 0)],
      m.2.1 < 19 ∧ m.2.2 < 19) ∧
    c4CexBoard.zobrist_hash ≠ occupiedXor c4CexBoard.vertices := by
  refine ⟨by decide, ?_⟩
  set_option maxRecDepth 100000 in decide

/-!
### Termination of the ladder search
-/

theorem countP_le_of_imp (p q : Nat → Bool) : ∀ l : List Nat,
    (∀ j ∈ l, p j = true → q j = true) → l.countP p ≤ l.countP q := by
  intro l
  induction l with
  | nil => intro _; exact Nat.le_refl _
  | cons a l ih =>
    intro himp
    rw [List.countP_cons, List.countP_cons]
    have hl := ih (fun j hj => himp j (List.mem_cons_of_mem a hj))
    by_cases hp : p a = true
    · rw [if_pos hp, if_pos (himp a (List.mem_cons_self a l) hp)]
      omega
    · rw [if_neg hp]
      split <;> omega

theorem countP_update (p q : Nat → Bool) : ∀ l : List Nat, l.Nodup →
    ∀ m ∈ l, (∀ j ∈ l, j ≠ m → p j = q j) → p m = true → q m = false →
      l.countP q + 1 = l.countP p := by
  intro l
  induction l with
  | nil => intro _ m hm; exact absurd hm (List.not_mem_nil m)
  | cons a l ih =>
    intro hnd m hm hagree hp hq
    have hmL : a ∉ l := (List.nodup_cons.mp hnd).1
    have hnd' := (List.nodup_cons.mp hnd).2
    rw [List.countP_cons, List.countP_cons]
    rcases List.mem_cons.mp hm with rfl | hm2
    · have hmap : l.countP p = l.countP q := by
        apply List.countP_congr
        intro j hj
        rw [hagree j (List.mem_cons_of_mem _ hj) (fun hjm => hmL (hjm ▸ hj))]
      rw [hmap, hp, hq]
      norm_num
    · have ha : a ≠ m := fun hc => hmL (hc ▸ hm2)
      rw [hagree a (List.mem_cons_self a l) ha]
      have hih := ih hnd' m hm2
        (fun j hj hjm => hagree j (List.mem_cons_of_mem _ hj) hjm) hp hq
      split <;> omega

theorem sentinelsOK_upd {v : Nat → Nat} (hs : sentinelsOK v) {i : Nat}
    (hi : i < 361) (x : Nat) : sentinelsOK (upd v i x) := by
  intro j hj
  rw [upd_other _ _ _ _ (by omega : 361 + j ≠ i)]
  exact hs j hj

theorem emptyCount_upd_le {v : Nat → Nat} {i x : Nat} (hx : x ≠ 0) :
    emptyCount (upd v i x) ≤ emptyCount v := by
  rw [emptyCount, emptyCount]
  apply countP_le_of_imp
  intro j _ hpj
  by_cases hji : j = i
  · rw [hji, upd_same] at hpj
    exact absurd (by simpa using hpj) hx
  · rwa [upd_other _ _ _ _ hji] at hpj

theorem emptyCount_upd_occupy {v : Nat → Nat} {i x : Nat} (hi : i < 361)
    (he : v i = 0) (hx : x ≠ 0) :
    emptyCount (upd v i x) + 1 = emptyCount v := by
  rw [emptyCount, emptyCount]
  apply countP_update _ _ (List.range 361) (List.nodup_range 361) i
    (List.mem_range.mpr hi)
  · intro j _ hji
    rw [upd_other _ _ _ _ hji]
  · rw [he]
    rfl
  · rw [upd_same]
    simp [hx]

theorem getOneLibertyAux_some {v f : Nat → Nat} (hs : sentinelsOK v)
    (index : Nat) : ∀ fuel cur e, getOneLibertyAux v f index fuel cur = some e →
    v e = 0 ∧ e < 361 := by
  intro fuel
  induction fuel with
  | zero =>
    intro cur e h
    rw [getOneLibertyAux] at h
    exact absurd h (by simp)
  | succ n ih =>
    intro cur e h
    rw [getOneLibertyAux] at h
    by_cases h1 : v (tblN cur) = 0
    · rw [if_pos h1] at h
      cases h
      rcases tblN_cases cur with ⟨ha, hb⟩ | ha
      · rw [ha] at h1
        exact ⟨h1, hb⟩
      · rw [ha, sentinel_361 hs] at h1
        exact absurd h1 (by norm_num)
    · rw [if_neg h1] at h
      by_cases h2 : v (tblE cur) = 0
      · rw [if_pos h2] at h
        cases h
        rcases tblE_cases cur with ⟨ha, hb, hc⟩ | ha
        · rw [ha] at h2
          exact ⟨h2, by omega⟩
        · rw [ha, sentinel_361 hs] at h2
          exact absurd h2 (by norm_num)
      · rw [if_neg h2] at h
        by_cases h3 : v (tblS cur) = 0
        · rw [if_pos h3] at h
          cases h
          rcases tblS_cases cur with ⟨ha, hb, hc⟩ | ha
          · rw [ha] at h3
            exact ⟨h3, by omega⟩
          · rw [ha, sentinel_361 hs] at h3
            exact absurd h3 (by norm_num)
        · rw [if_neg h3] at h
          by_cases h4 : v (tblW cur) = 0
          · rw [if_pos h4] at h
            cases h
            rcases tblW_cases cur with ⟨ha, hb, hc⟩ | ha
            · rw [ha] at h4
              exact ⟨h4, by omega⟩
            · rw [ha, sentinel_361 hs] at h4
              exact absurd h4 (by norm_num)
          · rw [if_neg h4] at h
            by_cases h5 : f cur = index
            · rw [if_pos h5] at h
              exact absurd h (by simp)
            · rw [if_neg h5] at h
              exact ih (f cur) e h

theorem ladderCheckDir_some {v f : Nat → Nat} (hs : sentinelsOK v)
    {opp nb e : Nat} (h : ladderCheckDir v f opp nb = some e) :
    v e = 0 ∧ e < 361 := by
  rw [ladderCheckDir] at h
  split at h
  · split at h
    · exact absurd h (by simp)
    · rw [get_one_liberty] at h
      exact getOneLibertyAux_some hs nb 361 nb e h
  · exact absurd h (by simp)

theorem ladderFindOpp_some {v f : Nat → Nat} (hs : sentinelsOK v)
    {opp index e : Nat} (h : ladderFindOpp v f opp index = some e) :
    v e = 0 ∧ e < 361 := by
  rw [ladderFindOpp] at h
  split at h
  · rename_i e2 hN
    cases h
    exact ladderCheckDir_some hs hN
  · split at h
    · rename_i e2 hE
      cases h
      exact ladderCheckDir_some hs hE
    · split at h
      · rename_i e2 hS
        cases h
        exact ladderCheckDir_some hs hS
      · exact ladderCheckDir_some hs h

theorem ladderAux_stable (c : Color) : ∀ n : Nat, ∀ v f : Nat → Nat,
    ∀ index a b : Nat, sentinelsOK v → index < 361 → emptyCount v ≤ n →
    n ≤ a → n ≤ b →
    ladderAux c (a + 1) v f index = ladderAux c (b + 1) v f index := by
  intro n
  induction n using Nat.strong_induction_on with
  | _ n IH =>
    intro v f index a b hs hidx hcount ha hb
    simp only [ladderAux]
    set v1 := (place_no_capture v f c index).1 with hv1
    set f1 := (place_no_capture v f c index).2 with hf1
    cases hopt : ladderFindOpp v1 f1 c.opposite.val index with
    | none => rfl
    | some oppIdx =>
      dsimp only
      set v2 := (place_no_capture v1 f1 c.opposite oppIdx).1 with hv2
      set f2 := (place_no_capture v1 f1 c.opposite oppIdx).2 with hf2
      have hcv : c.val ≠ 0 := by cases c <;> simp [Color.val]
      have hov : c.opposite.val ≠ 0 := by
        cases c <;> simp [Color.opposite, Color.val]
      have hv1e : v1 = upd v index c.val := hv1.trans rfl
      have hs1 : sentinelsOK v1 := by
        rw [hv1e]
        exact sentinelsOK_upd hs hidx c.val
      have hle1 : emptyCount v1 ≤ emptyCount v := by
        rw [hv1e]
        exact emptyCount_upd_le hcv
      obtain ⟨hoe, holt⟩ := ladderFindOpp_some hs1 hopt
      have hv2e : v2 = upd v1 oppIdx c.opposite.val := hv2.trans rfl
      have hs2 : sentinelsOK v2 := by
        rw [hv2e]
        exact sentinelsOK_upd hs1 holt c.opposite.val
      have hec2 : emptyCount v2 + 1 = emptyCount v1 := by
        rw [hv2e]
        exact emptyCount_upd_occupy holt hoe hov
      have hpos : 0 < emptyCount v1 := by
        rw [emptyCount]
        refine List.countP_pos.mpr ⟨oppIdx, List.mem_range.mpr holt, ?_⟩
        simp [hoe]
      obtain ⟨a2, rfl⟩ : ∃ a2, a = a2 + 1 := ⟨a - 1, by omega⟩
      obtain ⟨b2, rfl⟩ : ∃ b2, b = b2 + 1 := ⟨b - 1, by omega⟩
      have hrec : ∀ t : Nat, t < 361 ∨ t = 361 →
          (if v2 t = 0 then ladderAux c (a2 + 1) v2 f2 t else false)
            = (if v2 t = 0 then ladderAux c (b2 + 1) v2 f2 t else false) := by
        intro t ht
        split
        · rename_i hempty2
          have ht361 : t < 361 := by
            rcases ht with h | h
            · exact h
            · rw [h, sentinel_361 hs2] at hempty2
              omega
          exact IH (n - 1) (by omega) v2 f2 t a2 b2 hs2 ht361 (by omega)
            (by omega) (by omega)
        · rfl
      have htblN : tblN oppIdx < 361 ∨ tblN oppIdx = 361 := by
        rcases tblN_cases oppIdx with ⟨h1, h2⟩ | h1
        exacts [Or.inl (by omega), Or.inr h1]
      have htblE : tblE oppIdx < 361 ∨ tblE oppIdx = 361 := by
        rcases tblE_cases oppIdx with ⟨h1, h2, h3⟩ | h1
        exacts [Or.inl (by omega), Or.inr h1]
      have htblS : tblS oppIdx < 361 ∨ tblS oppIdx = 361 := by
        rcases tblS_cases oppIdx with ⟨h1, h2, h3⟩ | h1
        exacts [Or.inl (by omega), Or.inr h1]
      have htblW : tblW oppIdx < 361 ∨ tblW oppIdx = 361 := by
        rcases tblW_cases oppIdx with ⟨h1, h2, h3⟩ | h1
        exacts [Or.inl (by omega), Or.inr h1]
      rw [hrec (tblN oppIdx) htblN, hrec (tblE oppIdx) htblE,
        hrec (tblS oppIdx) htblS, hrec (tblW oppIdx) htblW]

/-- C8: the ladder search terminates, with recursion depth bounded by the
number of empty cells: above that bound the fuel of the embedded recursion
of `_is_ladder_capture` is irrelevant, and the fuel-362 entry points
`is_ladder_capture` and `is_ladder_escape` (361 cells < 362) compute that
stable value, so both return after finitely many bounded steps. -/
theorem claimC8 (b : Board) (c : Color) (index : Nat)
    (hs : sentinelsOK b.vertices) (hi : index < 361) :
    ∀ F, emptyCount b.vertices < F →
      ladderAux c F b.vertices b.next_vertex index
          = b.is_ladder_capture c index ∧
      ladderEscapeF F b c index = b.is_ladder_escape c index := by
  intro F hF
  have hec : emptyCount b.vertices ≤ 361 := by
    rw [emptyCount]
    calc (List.range 361).countP (fun i => b.vertices i == 0)
        ≤ (List.range 361).length := List.countP_le_length _
      _ = 361 := List.length_range 361
  obtain ⟨F2, rfl⟩ : ∃ F2, F = F2 + 1 := ⟨F - 1, by omega⟩
  constructor
  · rw [Board.is_ladder_capture, show (362 : Nat) = 361 + 1 from rfl]
    exact ladderAux_stable c (emptyCount b.vertices) b.vertices b.next_vertex
      index F2 361 hs hi (Nat.le_refl _) (by omega) (by omega)
  · rw [Board.is_ladder_escape]
    simp only [ladderEscapeF]
    set v1 := (place_no_capture b.vertices b.next_vertex c index).1 with hv1
    set f1 := (place_no_capture b.vertices b.next_vertex c index).2 with hf1
    have hv1e : v1 = upd b.vertices index c.val := hv1.trans rfl
    have hs1 : sentinelsOK v1 := by
      rw [hv1e]
      exact sentinelsOK_upd hs hi c.val
    have hcv : c.val ≠ 0 := by cases c <;> simp [Color.val]
    have hle1 : emptyCount v1 ≤ emptyCount b.vertices := by
      rw [hv1e]
      exact emptyCount_upd_le hcv
    have hrec2 : ∀ t : Nat,
        (decide (t < 361) && ladderAux c (F2 + 1) v1 f1 t)
          = (decide (t < 361) && ladderAux c 362 v1 f1 t) := by
      intro t
      by_cases ht : t < 361
      · simp only [decide_eq_true ht, Bool.true_and]
        rw [show (362 : Nat) = 361 + 1 from rfl]
        exact ladderAux_stable c (emptyCount v1) v1 f1 t F2 361 hs1 ht
          (Nat.le_refl _) (by omega) (by omega)
      · simp [ht]
    rw [hrec2 (tblN index), hrec2 (tblE index), hrec2 (tblS index),
      hrec2 (tblW index)]

/-- Witness for C8 at the fresh board with fuel 400. -/
theorem claimC8_witness :
    sentinelsOK Board.new.vertices ∧ (0 : Nat) < 361 ∧
    emptyCount Board.new.vertices < 400 ∧
    (ladderAux Color.black 400 Board.new.vertices Board.new.next_vertex 0
        = Board.new.is_ladder_capture Color.black 0 ∧
      ladderEscapeF 400 Board.new Color.black 0
        = Board.new.is_ladder_escape Color.black 0) :=
  ⟨by decide, by norm_num, by set_option maxRecDepth 10000 in decide,
    claimC8 Board.new Color.black 0 (by decide) (by norm_num) 400
      (by set_option maxRecDepth 10000 in decide)⟩

end DreamGo
